import Mathlib

/-!
A shallow embedding of the core of `cargo-easy-dep` (`src/main.rs`): the
frequency analysis of workspace dependencies (`find_common_dependencies`),
the root-manifest rewrite (`update_root_cargo_toml`), the member-manifest
rewrite (`update_member_cargo_toml` / `update_dependencies_table`) and the
driver (`run`).

Modelling conventions:
* `cargo_metadata` values are embedded structurally: a `Dep` is a declared
  dependency record (one record per declaration in a manifest table, as in
  `Package::dependencies`), a `Package` is a workspace package, `Metadata`
  carries the member id list, the package list and the workspace root.
* `toml_edit` documents are embedded as ordered key/item trees (`Table`,
  `Item`, `Tables`).  Only the item shapes the source inspects are kept as
  distinct constructors (`Value::String`, `Value::Boolean`,
  `Value::InlineTable`, `Item::Table`, `Item::ArrayOfTables`); the remaining
  value kinds, which the source's catch-all `_ => {}` arm never touches, are
  collapsed into `arrV` (arrays, kept concrete because they occur as
  preserved attribute values such as `features`) and `otherV` (a tagged
  opaque value standing for integers, floats, datetimes, ...).
  Formatting, comments and whitespace are not modelled: `toml_edit`
  serializes an unmodified tree back to the original bytes, so equality of
  trees stands for byte identity of the serialized files.
* The file system is an association list from paths to parsed documents;
  `writeFs` replaces the document stored at a path in place (appending when
  the path is new), mirroring `fs::write`.
* `HashMap` iteration is modelled by association lists in insertion order;
  no theorem below depends on the iteration order.  A `toml_edit::Table`
  has unique keys, so the source's loop over `common_deps.keys()` patching
  each key present in the table is embedded as one traversal of the table
  patching every entry whose key occurs in the key list.
-/

/-- A declared dependency record from the workspace inventory
(`cargo_metadata::Dependency`): name, version requirement, and the local
path (`some` for path dependencies, `none` for registry/remote sources). -/
structure Dep where
  name : String
  req : String
  path : Option String
  deriving DecidableEq

/-- A workspace package (`cargo_metadata::Package`): id, manifest path and
its ordered list of declared dependency records. -/
structure Package where
  id : String
  manifestPath : String
  dependencies : List Dep
  deriving DecidableEq

/-- The workspace inventory (`cargo_metadata::Metadata`, with `no_deps`). -/
structure Metadata where
  workspaceMembers : List String
  packages : List Package
  workspaceRoot : String
  deriving DecidableEq

mutual

/-- A `toml_edit` item, restricted to the shapes `src/main.rs` inspects.
`strV`/`boolV`/`inlineTable` are `Item::Value` of a string, boolean or
inline table; `stdTable` is `Item::Table`; `arrayOfTables` is
`Item::ArrayOfTables`; `arrV` and `otherV` cover the remaining value kinds
(all of which fall into the source's `_ => {}` arm). -/
inductive Item : Type where
  | strV (s : String)
  | boolV (b : Bool)
  | arrV (elems : List String)
  | otherV (tag : String)
  | inlineTable (t : Table)
  | stdTable (t : Table)
  | arrayOfTables (ts : Tables)

/-- An ordered `toml_edit` table: a sequence of key/item entries. -/
inductive Table : Type where
  | nil
  | cons (key : String) (val : Item) (rest : Table)

/-- The element list of an `Item::ArrayOfTables`. -/
inductive Tables : Type where
  | nil
  | cons (head : Table) (rest : Tables)

end

/-- `Table::contains_key`. -/
def Table.containsKey : Table → String → Bool
  | Table.nil, _ => false
  | Table.cons k _ rest, key => k == key || Table.containsKey rest key

/-- Key lookup (`doc.get` / indexing): the value at the first matching key. -/
def Table.getKey : Table → String → Option Item
  | Table.nil, _ => none
  | Table.cons k v rest, key => if k == key then some v else Table.getKey rest key

/-- In-place replacement of the item stored at a key (`doc[key] = v` on a
present key): every entry with the key receives the new item, positions and
all other entries are untouched. -/
def Table.setKey : Table → String → Item → Table
  | Table.nil, _, _ => Table.nil
  | Table.cons k v rest, key, w =>
    Table.cons k (if k == key then w else v) (Table.setKey rest key w)

/-- `Table::remove`: drop the entry with the given key. -/
def Table.removeKey : Table → String → Table
  | Table.nil, _ => Table.nil
  | Table.cons k v rest, key =>
    if k == key then Table.removeKey rest key else Table.cons k v (Table.removeKey rest key)

/-- Insertion of a fresh key at the end of the table (`toml_edit` appends
new entries after the existing ones). -/
def Table.appendEntry : Table → String → Item → Table
  | Table.nil, key, w => Table.cons key w Table.nil
  | Table.cons k v rest, key, w => Table.cons k v (Table.appendEntry rest key w)

/-- `if !doc.contains_key(k) \x7b doc[k] = v \x7d`. -/
def ensureKey (t : Table) (k : String) (v : Item) : Table :=
  if t.containsKey k then t else t.appendEntry k v

/-- The keys of a table, in order. -/
def Table.keys : Table → List String
  | Table.nil => []
  | Table.cons k _ rest => k :: Table.keys rest

/-! ## Frequency analysis (`find_common_dependencies`, lines 201-242) -/

/-- First-match association lookup (the observable content of a `HashMap`
entry). -/
def lookupA {α : Type} : List (String × α) → String → Option α
  | [], _ => none
  | (k, v) :: rest, key => if k == key then some v else lookupA rest key

/-- `HashMap::contains_key` on the association-list model. -/
def containsA {α : Type} (m : List (String × α)) (k : String) : Bool :=
  (lookupA m k).isSome

/-- `dep_count.entry(name).or_insert(0); *count += 1`. -/
def bumpCount : List (String × Nat) → String → List (String × Nat)
  | [], key => [(key, 1)]
  | (k, c) :: rest, key =>
    if k == key then (k, c + 1) :: rest else (k, c) :: bumpCount rest key

/-- The count stored for a name (0 when absent). -/
def getCountD (m : List (String × Nat)) (k : String) : Nat :=
  (lookupA m k).getD 0

/-- `dep_info.entry(name).or_insert_with(|| dep.clone())`: insert only when
the key is absent. -/
def insertIfAbsent {α : Type} (m : List (String × α)) (k : String) (v : α) :
    List (String × α) :=
  if containsA m k then m else m ++ [(k, v)]

/-- The body of the dependency loop in `find_common_dependencies`
(lines 219-231): skip path dependencies, bump the counter, and the first
time the counter reaches the threshold capture the current record. -/
def stepDep (minOccurrences : Nat)
    (st : List (String × Nat) × List (String × Dep)) (dep : Dep) :
    List (String × Nat) × List (String × Dep) :=
  if dep.path.isSome then st
  else
    let counts := bumpCount st.1 dep.name
    if minOccurrences ≤ getCountD counts dep.name then
      (counts, insertIfAbsent st.2 dep.name dep)
    else
      (counts, st.2)

/-- `metadata.packages.iter().find(|p| p.id == *package_id)`. -/
def findPackage (packages : List Package) (pid : String) : Option Package :=
  packages.find? (fun p => p.id == pid)

/-- Resolution of every workspace member id to its package, failing on the
first id without a package (the error raised at lines 211-217; the source
interleaves the lookups with the counting, which is equivalent for the
result since counting is pure and the first missing id aborts). -/
def memberPackagesGo (packages : List Package) :
    List String → Except String (List Package)
  | [] => Except.ok []
  | pid :: rest =>
    match findPackage packages pid with
    | none => Except.error ("Package not found for ID: " ++ pid)
    | some p =>
      match memberPackagesGo packages rest with
      | Except.error e => Except.error e
      | Except.ok ps => Except.ok (p :: ps)

/-- The packages of the workspace members, in inventory order. -/
def memberPackages (md : Metadata) : Except String (List Package) :=
  memberPackagesGo md.packages md.workspaceMembers

/-- `find_common_dependencies` (lines 201-242): count registry-sourced
declaration records per name across members in inventory order and return
the map from qualifying names to their captured representative record. -/
def find_common_dependencies (md : Metadata) (minOccurrences : Nat) :
    Except String (List (String × Dep)) :=
  match memberPackages md with
  | Except.error e => Except.error e
  | Except.ok pkgs =>
    Except.ok
      ((pkgs.foldl (fun st p => p.dependencies.foldl (stepDep minOccurrences) st)
        ([], [])).2)

/-! ## Root rewrite (`update_root_cargo_toml`, lines 244-304) -/

/-- The insertion loop of `update_root_cargo_toml` (lines 274-286):
`deps_table.entry(name).or_insert_with(|| { modified = true; value(req) })`
for each common dependency, in map order; the flag records whether any
insertion happened. -/
def addCommonDeps : List (String × Dep) → Table → Table × Bool
  | [], deps => (deps, false)
  | (n, info) :: rest, deps =>
    let step : Table × Bool :=
      if deps.containsKey n then (deps, false)
      else (deps.appendEntry n (Item.strV info.req), true)
    let r := addCommonDeps rest step.1
    (r.1, step.2 || r.2)

/-- `update_root_cargo_toml` (lines 244-304), acting on the parsed root
document: ensure a `workspace` table exists, fail unless it is a standard
table, ensure a `workspace.dependencies` table exists, then insert every
qualifying dependency absent from it as a plain version string.  The
`dependencies` table-shape check happens inside the source's loop, so an
empty map skips it.  (The unconditional `fs::write` at line 288 lives in
`run` below.) -/
def update_root_cargo_toml (commonDeps : List (String × Dep)) (doc : Table) :
    Except String (Table × Bool) :=
  let doc1 := ensureKey doc "workspace" (Item.stdTable Table.nil)
  match doc1.getKey "workspace" with
  | some (Item.stdTable ws0) =>
    let ws1 := ensureKey ws0 "dependencies" (Item.stdTable Table.nil)
    let doc2 := doc1.setKey "workspace" (Item.stdTable ws1)
    if commonDeps.isEmpty then Except.ok (doc2, false)
    else
      match ws1.getKey "dependencies" with
      | some (Item.stdTable deps) =>
        let r := addCommonDeps commonDeps deps
        Except.ok
          (doc2.setKey "workspace"
            (Item.stdTable (ws1.setKey "dependencies" (Item.stdTable r.1))), r.2)
      | _ => Except.error "workspace.dependencies is not a table"
  | _ => Except.error "workspace is not a table"

/-! ## Member rewrite (`update_dependencies_table`, lines 367-434, and
`update_member_cargo_toml`, lines 306-365) -/

/-- The shared body of the `Value::InlineTable` and `Item::Table` arms
(lines 384-421, two syntactically parallel branches in the source): remove
a `version` key if present (without touching the modified flag), then
insert `workspace = true` when the key is absent (setting the flag), flip a
boolean `false` to `true` (setting the flag), and leave any other existing
`workspace` value alone. -/
def rewriteAttrTable (t : Table) : Table × Bool :=
  let t1 := t.removeKey "version"
  match t1.getKey "workspace" with
  | none => (t1.appendEntry "workspace" (Item.boolV true), true)
  | some (Item.boolV b) =>
    if b then (t1, false) else (t1.setKey "workspace" (Item.boolV true), true)
  | some _ => (t1, false)

mutual

/-- `update_dependencies_table` (lines 367-434): patch every entry of the
table whose key is a qualifying name; other entries are untouched.  (The
source loops over `common_deps.keys()` and patches each key present in the
table; since a `toml_edit` table has unique keys this is the same single
traversal.) -/
def update_dependencies_table (names : List String) : Table → Table × Bool
  | Table.nil => (Table.nil, false)
  | Table.cons k v rest =>
    let hd := if names.contains k then updateDepItem names v else (v, false)
    let tl := update_dependencies_table names rest
    (Table.cons k hd.1 tl.1, hd.2 || tl.2)

/-- The `match &mut deps_table[name]` of lines 375-429: a version string is
replaced by the inline table `\x7b workspace = true \x7d`; inline tables and
standard tables go through `rewriteAttrTable`; an array of tables recurses
`update_dependencies_table` into every element; every other shape falls to
the source's `_ => \x7b\x7d` arm and is left untouched. -/
def updateDepItem (names : List String) : Item → Item × Bool
  | Item.strV _ =>
    (Item.inlineTable (Table.cons "workspace" (Item.boolV true) Table.nil), true)
  | Item.inlineTable t =>
    let r := rewriteAttrTable t
    (Item.inlineTable r.1, r.2)
  | Item.stdTable t =>
    let r := rewriteAttrTable t
    (Item.stdTable r.1, r.2)
  | Item.arrayOfTables ts =>
    let r := updateDepTables names ts
    (Item.arrayOfTables r.1, r.2)
  | e => (e, false)

/-- The `Item::ArrayOfTables` arm (lines 423-427): run
`update_dependencies_table` on every element, OR-ing the flags. -/
def updateDepTables (names : List String) : Tables → Tables × Bool
  | Tables.nil => (Tables.nil, false)
  | Tables.cons t rest =>
    let hd := update_dependencies_table names t
    let tl := updateDepTables names rest
    (Tables.cons hd.1 tl.1, hd.2 || tl.2)

end

/-- One `if let Some(deps) = doc.get_mut(k)` block of
`update_member_cargo_toml` (lines 320-353): skip an absent key, rewrite a
standard table in place, and fail when the key holds anything else
(`as_table_mut` is `None`). -/
def processDepsKey (names : List String) (k : String) (acc : Table × Bool) :
    Except String (Table × Bool) :=
  match acc.1.getKey k with
  | none => Except.ok acc
  | some (Item.stdTable tb) =>
    let r := update_dependencies_table names tb
    Except.ok (acc.1.setKey k (Item.stdTable r.1), acc.2 || r.2)
  | some _ => Except.error (k ++ " is not a table")

/-- `update_member_cargo_toml` (lines 306-365) on the parsed document: the
three dependency-bearing tables are processed in order; only the keys of
the common-dependency map are consulted, so the function takes the name
list.  (The conditional `fs::write` at lines 355-362 lives in `run`.) -/
def update_member_cargo_toml (names : List String) (doc : Table) :
    Except String (Table × Bool) :=
  match processDepsKey names "dependencies" (doc, false) with
  | Except.error e => Except.error e
  | Except.ok a =>
    match processDepsKey names "dev-dependencies" a with
    | Except.error e => Except.error e
    | Except.ok b => processDepsKey names "build-dependencies" b

/-! ## The driver (`run`, lines 129-198) and the file-system boundary -/

/-- Read the parsed document stored at a path. -/
def readFs : List (String × Table) → String → Option Table
  | [], _ => none
  | (q, d) :: rest, p => if q == p then some d else readFs rest p

/-- Whether a path is present in the file system. -/
def containsFs (fs : List (String × Table)) (p : String) : Bool :=
  (readFs fs p).isSome

/-- `fs::write`: replace the document stored at a path in place, appending
the entry when the path is new. -/
def writeFs (fs : List (String × Table)) (p : String) (d : Table) :
    List (String × Table) :=
  if containsFs fs p then fs.map (fun e => if e.1 = p then (e.1, d) else e)
  else fs ++ [(p, d)]

/-- `metadata.workspace_root.join("Cargo.toml")`. -/
def rootManifestPath (md : Metadata) : String :=
  md.workspaceRoot ++ "/Cargo.toml"

/-- The names of the qualifying dependencies (the keys consulted by the
member rewrite). -/
def namesOf (common : List (String × Dep)) : List String :=
  common.map Prod.fst

/-- What a run reports: the root modification flag, the per-member
`(manifest path, modified)` results in order, and the list of paths written
to disk in write order. -/
structure RunReport where
  rootModified : Bool
  members : List (String × Bool)
  writes : List String

/-- The member loop of `run` (lines 176-188): look up each member package,
read and rewrite its manifest, and write it back only when the rewrite
reported a modification. -/
def runMembers (names : List String) (md : Metadata) :
    List String → List (String × Table) →
    Except String (List (String × Table) × List (String × Bool) × List String)
  | [], fs => Except.ok (fs, [], [])
  | pid :: rest, fs =>
    match findPackage md.packages pid with
    | none => Except.error ("Package not found for ID: " ++ pid)
    | some p =>
      match readFs fs p.manifestPath with
      | none => Except.error ("IO error: missing file " ++ p.manifestPath)
      | some doc =>
        match update_member_cargo_toml names doc with
        | Except.error e => Except.error e
        | Except.ok dm =>
          let fs1 := if dm.2 then writeFs fs p.manifestPath dm.1 else fs
          match runMembers names md rest fs1 with
          | Except.error e => Except.error e
          | Except.ok r =>
            Except.ok (r.1, (p.manifestPath, dm.2) :: r.2.1,
              (if dm.2 then [p.manifestPath] else []) ++ r.2.2)

/-- `run` (lines 129-198) over the file-system model: find the common
dependencies, stop successfully when there are none, rewrite the root
document and write it back unconditionally (line 288 writes whether or not
anything changed), then rewrite each member manifest, writing back only the
modified ones. -/
def run (md : Metadata) (minOccurrences : Nat) (fs : List (String × Table)) :
    Except String (List (String × Table) × RunReport) :=
  match find_common_dependencies md minOccurrences with
  | Except.error e => Except.error e
  | Except.ok common =>
    if common.isEmpty then Except.ok (fs, ⟨false, [], []⟩)
    else
      match readFs fs (rootManifestPath md) with
      | none => Except.error ("IO error: missing file " ++ rootManifestPath md)
      | some rootDoc =>
        match update_root_cargo_toml common rootDoc with
        | Except.error e => Except.error e
        | Except.ok rm =>
          let fs1 := writeFs fs (rootManifestPath md) rm.1
          match runMembers (namesOf common) md md.workspaceMembers fs1 with
          | Except.error e => Except.error e
          | Except.ok r =>
            Except.ok (r.1, ⟨rm.2, r.2.1, rootManifestPath md :: r.2.2⟩)

/-! ## Derived observation functions and concrete instances used by the
theorems below -/

/-- The registry-sourced declaration records with a given name, in scan
order (each record of each member counts separately). -/
def registryOccs (l : List Dep) (n : String) : List Dep :=
  l.filter (fun d => d.path.isNone && d.name == n)

/-- All declaration records of the member packages, flattened in inventory
order. -/
def allMemberDeps : List Package → List Dep
  | [] => []
  | p :: rest => p.dependencies ++ allMemberDeps rest

/-- The loop invariant of `find_common_dependencies`, after scanning the
record list `l`: the counter of each name is the number of its
registry-sourced records so far, and the info map holds exactly the names
whose count has reached the threshold, each bound to the record at which
the threshold was reached (the `minOccurrences`-th registry occurrence). -/
def ScanInv (t : Nat) (l : List Dep)
    (st : List (String × Nat) × List (String × Dep)) : Prop :=
  (∀ n, getCountD st.1 n = (registryOccs l n).length) ∧
  (∀ n, lookupA st.2 n =
    if t ≤ (registryOccs l n).length
    then (registryOccs l n)[t - 1]? else none)

/-- The entry recorded for a dependency name in the root document's
`workspace.dependencies` table, when that chain of tables exists. -/
def rootDepEntry (doc : Table) (n : String) : Option Item :=
  match doc.getKey "workspace" with
  | some (Item.stdTable ws) =>
    match ws.getKey "dependencies" with
    | some (Item.stdTable deps) => deps.getKey n
    | _ => none
  | _ => none

/-- The declaration variants the source's `match` recognizes apart from the
array-of-tables variant: version string, inline attribute set, attribute
block. -/
def recognizedNonList : Item → Bool
  | Item.strV _ => true
  | Item.inlineTable _ => true
  | Item.stdTable _ => true
  | _ => false

/-- The shapes that fall into the source's `_ => \x7b\x7d` arm. -/
def unrecognizedShape : Item → Bool
  | Item.strV _ => false
  | Item.inlineTable _ => false
  | Item.stdTable _ => false
  | Item.arrayOfTables _ => false
  | _ => true

/-- Whether an attribute table carries the delegation marker
`workspace = true`. -/
def hasWorkspaceTrue (tb : Table) : Bool :=
  match tb.getKey "workspace" with
  | some (Item.boolV true) => true
  | _ => false

/-- Whether a declaration (inline attribute set or attribute block) carries
the delegation marker and no `version` key. -/
def delegatedDecl : Item → Bool
  | Item.inlineTable tb => hasWorkspaceTrue tb && !(tb.containsKey "version")
  | Item.stdTable tb => hasWorkspaceTrue tb && !(tb.containsKey "version")
  | _ => false

/-- Whether an attribute table's pre-existing `workspace` key is boolean or
absent (the source's `as_bool` guard leaves any other value alone). -/
def tableMarkerOk (tb : Table) : Bool :=
  match tb.getKey "workspace" with
  | none => true
  | some (Item.boolV _) => true
  | some _ => false

/-- Whether a declaration's pre-existing delegation-marker key is boolean
or absent. -/
def markerBoolOrAbsent : Item → Bool
  | Item.inlineTable tb => tableMarkerOk tb
  | Item.stdTable tb => tableMarkerOk tb
  | _ => true

/-- Every entry of the file system stored at path `p` holds document `d`. -/
def FsAllEq (fs : List (String × Table)) (p : String) (d : Table) : Prop :=
  ∀ e ∈ fs, e.1 = p → e.2 = d

/-- The manifest paths of the resolvable member packages, in order. -/
def memberPathsOf (md : Metadata) (pids : List String) : List String :=
  pids.filterMap (fun pid => (findPackage md.packages pid).map (fun p => p.manifestPath))

/-- The declaration entry recorded for a dependency name in a member
document's top-level `dependencies` table. -/
def memberDepEntry (doc : Table) (n : String) : Option Item :=
  match doc.getKey "dependencies" with
  | some (Item.stdTable tb) => tb.getKey n
  | _ => none

/-- How many packages of a list declare a registry-sourced dependency with
the given name (each package counted once). -/
def modulesDeclaring (pkgs : List Package) (n : String) : Nat :=
  (pkgs.filter (fun p => p.dependencies.any (fun d => d.path.isNone && d.name == n))).length

def depA1 : Dep := ⟨"a", "1.0", none⟩

def depA2 : Dep := ⟨"a", "2.0", none⟩

def depB2 : Dep := ⟨"b", "2.0", none⟩

def pkgsTwo : List Package :=
  [⟨"m1", "m1/Cargo.toml", [depA1]⟩, ⟨"m2", "m2/Cargo.toml", [depA2]⟩]

def mdTwo : Metadata := ⟨["m1", "m2"], pkgsTwo, "root"⟩

def pkgDouble : Package := ⟨"m1", "m1/Cargo.toml", [depA1, depA1]⟩

def rootDocPinned : Table :=
  Table.cons "workspace"
    (Item.stdTable
      (Table.cons "dependencies"
        (Item.stdTable (Table.cons "a" (Item.strV "1.0") Table.nil)) Table.nil))
    Table.nil

def rootDocPinnedOut : Table :=
  Table.cons "workspace"
    (Item.stdTable
      (Table.cons "dependencies"
        (Item.stdTable
          (Table.cons "a" (Item.strV "1.0")
            (Table.cons "b" (Item.strV "2.0") Table.nil)))
        Table.nil))
    Table.nil

def docC5 : Table :=
  Table.cons "dependencies"
    (Item.stdTable
      (Table.cons "a"
        (Item.inlineTable
          (Table.cons "version" (Item.strV "1.0")
            (Table.cons "workspace" (Item.strV "yes") Table.nil)))
        Table.nil))
    Table.nil

def docC5out : Table :=
  Table.cons "dependencies"
    (Item.stdTable
      (Table.cons "a"
        (Item.inlineTable (Table.cons "workspace" (Item.strV "yes") Table.nil))
        Table.nil))
    Table.nil

def docC9 : Table :=
  Table.cons "dependencies"
    (Item.stdTable (Table.cons "a" (Item.otherV "integer") Table.nil)) Table.nil

def depFoo : Dep := ⟨"foo", "1.0", none⟩

def depBar : Dep := ⟨"bar", "2.0", none⟩

def docC6 : Table :=
  Table.cons "dependencies"
    (Item.stdTable
      (Table.cons "foo" (Item.strV "1.0")
        (Table.cons "bar"
          (Item.inlineTable
            (Table.cons "version" (Item.strV "2.0")
              (Table.cons "features" (Item.arrV ["x"]) Table.nil)))
          Table.nil)))
    Table.nil

def docC6out : Table :=
  Table.cons "dependencies"
    (Item.stdTable
      (Table.cons "foo"
        (Item.inlineTable (Table.cons "workspace" (Item.boolV true) Table.nil))
        (Table.cons "bar"
          (Item.inlineTable
            (Table.cons "features" (Item.arrV ["x"])
              (Table.cons "workspace" (Item.boolV true) Table.nil)))
          Table.nil)))
    Table.nil

def rootC6out : Table :=
  Table.cons "workspace"
    (Item.stdTable
      (Table.cons "dependencies"
        (Item.stdTable
          (Table.cons "foo" (Item.strV "1.0")
            (Table.cons "bar" (Item.strV "2.0") Table.nil)))
        Table.nil))
    Table.nil

def memDocFresh : Table :=
  Table.cons "dependencies"
    (Item.stdTable (Table.cons "a" (Item.strV "1.0") Table.nil)) Table.nil

def mdRun : Metadata := ⟨["m1"], [⟨"m1", "m1/Cargo.toml", [depA1]⟩], "root"⟩

def fsFresh : List (String × Table) :=
  [("root/Cargo.toml", Table.nil), ("m1/Cargo.toml", memDocFresh)]

def rootAfter : Table :=
  Table.cons "workspace"
    (Item.stdTable
      (Table.cons "dependencies"
        (Item.stdTable (Table.cons "a" (Item.strV "1.0") Table.nil)) Table.nil))
    Table.nil

def memAfter : Table :=
  Table.cons "dependencies"
    (Item.stdTable
      (Table.cons "a"
        (Item.inlineTable (Table.cons "workspace" (Item.boolV true) Table.nil))
        Table.nil))
    Table.nil

def fsFresh1 : List (String × Table) :=
  [("root/Cargo.toml", rootAfter), ("m1/Cargo.toml", memAfter)]

def repFresh : RunReport :=
  ⟨true, [("m1/Cargo.toml", true)], ["root/Cargo.toml", "m1/Cargo.toml"]⟩

/-! ## Basic lemmas about the table and association-list operations -/

theorem containsKey_eq_isSome_getKey : ∀ (t : Table) (k : String),
    t.containsKey k = (t.getKey k).isSome
  | Table.nil, _ => rfl
  | Table.cons k' v rest, k => by
    by_cases h : k' = k
    · simp [Table.containsKey, Table.getKey, h]
    · simp [Table.containsKey, Table.getKey, h,
        containsKey_eq_isSome_getKey rest k]

theorem getKey_setKey_self : ∀ (t : Table) (k : String) (v : Item),
    t.containsKey k = true → (t.setKey k v).getKey k = some v
  | Table.cons k' w rest, k, v, h => by
    by_cases hk : k' = k
    · simp [Table.setKey, Table.getKey, hk]
    · refine Eq.trans ?_ (getKey_setKey_self rest k v ?_)
      · simp [Table.setKey, Table.getKey, hk]
      · simpa [Table.containsKey, hk] using h

theorem getKey_setKey_ne : ∀ (t : Table) (k k' : String) (v : Item),
    k' ≠ k → (t.setKey k v).getKey k' = t.getKey k'
  | Table.nil, _, _, _, _ => rfl
  | Table.cons k0 w rest, k, k', v, h => by
    by_cases hk : k0 = k'
    · simp [Table.setKey, Table.getKey, hk, h]
    · simp [Table.setKey, Table.getKey, hk, getKey_setKey_ne rest k k' v h]

theorem containsKey_setKey : ∀ (t : Table) (k k' : String) (v : Item),
    (t.setKey k v).containsKey k' = t.containsKey k'
  | Table.nil, _, _, _ => rfl
  | Table.cons k0 w rest, k, k', v => by
    simp [Table.setKey, Table.containsKey, containsKey_setKey rest k k' v]

theorem setKey_setKey : ∀ (t : Table) (k : String) (v w : Item),
    (t.setKey k v).setKey k w = t.setKey k w
  | Table.nil, _, _, _ => rfl
  | Table.cons k0 u rest, k, v, w => by
    by_cases hk : k0 = k <;>
      simp [Table.setKey, hk, setKey_setKey rest k v w]

theorem setKey_comm : ∀ (t : Table) (k k' : String) (v w : Item), k ≠ k' →
    (t.setKey k v).setKey k' w = (t.setKey k' w).setKey k v
  | Table.nil, _, _, _, _, _ => rfl
  | Table.cons k0 u rest, k, k', v, w, h => by
    by_cases h1 : k0 = k
    · simp [Table.setKey, h1, h, Ne.symm h, setKey_comm rest k k' v w h]
    · by_cases h2 : k0 = k' <;>
        simp [Table.setKey, h1, h2, h, Ne.symm h, setKey_comm rest k k' v w h]

theorem setKey_of_not_contains : ∀ (t : Table) (k : String) (v : Item),
    t.containsKey k = false → t.setKey k v = t
  | Table.nil, _, _, _ => rfl
  | Table.cons k0 u rest, k, v, h => by
    have h0 : ¬(k0 = k) := by
      intro hk; simp [Table.containsKey, hk] at h
    have hr : rest.containsKey k = false := by
      simpa [Table.containsKey, h0] using h
    simp [Table.setKey, h0, setKey_of_not_contains rest k v hr]

theorem getKey_appendEntry_self : ∀ (t : Table) (k : String) (v : Item),
    t.getKey k = none → (t.appendEntry k v).getKey k = some v
  | Table.nil, k, v, _ => by simp [Table.appendEntry, Table.getKey]
  | Table.cons k0 u rest, k, v, h => by
    have h0 : ¬(k0 = k) := by
      intro hk; simp [Table.getKey, hk] at h
    have hr : rest.getKey k = none := by
      simpa [Table.getKey, h0] using h
    simp [Table.appendEntry, Table.getKey, h0, getKey_appendEntry_self rest k v hr]

theorem getKey_appendEntry_of_some : ∀ (t : Table) (k k' : String) (v w : Item),
    t.getKey k' = some w → (t.appendEntry k v).getKey k' = some w
  | Table.cons k0 u rest, k, k', v, w, h => by
    by_cases h0 : k0 = k'
    · simp [Table.getKey, h0] at h
      simp [Table.appendEntry, Table.getKey, h0, h]
    · have hr : rest.getKey k' = some w := by simpa [Table.getKey, h0] using h
      simp [Table.appendEntry, Table.getKey, h0,
        getKey_appendEntry_of_some rest k k' v w hr]

theorem getKey_appendEntry_ne : ∀ (t : Table) (k k' : String) (v : Item),
    k' ≠ k → (t.appendEntry k v).getKey k' = t.getKey k'
  | Table.nil, k, k', v, h => by simp [Table.appendEntry, Table.getKey, Ne.symm h]
  | Table.cons k0 u rest, k, k', v, h => by
    by_cases h0 : k0 = k'
    · simp [Table.appendEntry, Table.getKey, h0]
    · simp [Table.appendEntry, Table.getKey, h0, getKey_appendEntry_ne rest k k' v h]

theorem getKey_removeKey_self : ∀ (t : Table) (k : String),
    (t.removeKey k).getKey k = none
  | Table.nil, _ => rfl
  | Table.cons k0 u rest, k => by
    by_cases h0 : k0 = k <;>
      simp [Table.removeKey, Table.getKey, h0, getKey_removeKey_self rest k]

theorem getKey_removeKey_ne : ∀ (t : Table) (k k' : String),
    k' ≠ k → (t.removeKey k).getKey k' = t.getKey k'
  | Table.nil, _, _, _ => rfl
  | Table.cons k0 u rest, k, k', h => by
    by_cases h0 : k0 = k
    · simp [Table.removeKey, Table.getKey, h0, Ne.symm h,
        getKey_removeKey_ne rest k k' h]
    · by_cases h1 : k0 = k' <;>
        simp [Table.removeKey, Table.getKey, h0, h1, h, Ne.symm h,
          getKey_removeKey_ne rest k k' h]

theorem removeKey_of_not_contains : ∀ (t : Table) (k : String),
    t.containsKey k = false → t.removeKey k = t
  | Table.nil, _, _ => rfl
  | Table.cons k0 u rest, k, h => by
    have h0 : ¬(k0 = k) := by
      intro hk; simp [Table.containsKey, hk] at h
    have hr : rest.containsKey k = false := by
      simpa [Table.containsKey, h0] using h
    simp [Table.removeKey, h0, removeKey_of_not_contains rest k hr]

theorem containsKey_removeKey_ne : ∀ (t : Table) (k k' : String),
    k' ≠ k → (t.removeKey k).containsKey k' = t.containsKey k'
  | t, k, k', h => by
    rw [containsKey_eq_isSome_getKey, containsKey_eq_isSome_getKey,
      getKey_removeKey_ne t k k' h]

theorem containsKey_appendEntry_self (t : Table) (k : String) (v : Item) :
    (t.appendEntry k v).containsKey k = true := by
  rw [containsKey_eq_isSome_getKey]
  cases h : t.getKey k with
  | none => simp [getKey_appendEntry_self t k v h]
  | some w => simp [getKey_appendEntry_of_some t k k v w h]

/-! ## Association-list lemmas for the counting state -/

theorem getCountD_bumpCount_self : ∀ (m : List (String × Nat)) (k : String),
    getCountD (bumpCount m k) k = getCountD m k + 1
  | [], k => by simp [bumpCount, getCountD, lookupA]
  | (k0, c) :: rest, k => by
    by_cases h : k0 = k
    · simp [bumpCount, getCountD, lookupA, h]
    · simp only [bumpCount, if_neg h, getCountD, lookupA, beq_iff_eq]
      exact getCountD_bumpCount_self rest k

theorem getCountD_bumpCount_ne : ∀ (m : List (String × Nat)) (k n : String),
    n ≠ k → getCountD (bumpCount m k) n = getCountD m n
  | [], k, n, h => by simp [bumpCount, getCountD, lookupA, Ne.symm h]
  | (k0, c) :: rest, k, n, h => by
    by_cases h0 : k0 = k
    · simp [bumpCount, getCountD, lookupA, h0, Ne.symm h, h]
    · by_cases h1 : k0 = n
      · simp [bumpCount, getCountD, lookupA, h0, h1, h]
      · simp only [bumpCount, if_neg h0, getCountD, lookupA, beq_iff_eq]
        rw [if_neg h1, if_neg h1]
        exact getCountD_bumpCount_ne rest k n h

theorem lookupA_concat_ne {α : Type} :
    ∀ (m : List (String × α)) (k n : String) (v : α), n ≠ k →
      lookupA (m ++ [(k, v)]) n = lookupA m n
  | [], k, n, v, h => by simp [lookupA, Ne.symm h]
  | (k0, w) :: rest, k, n, v, h => by
    by_cases h0 : k0 = n <;>
      simp [lookupA, h0, lookupA_concat_ne rest k n v h]

theorem lookupA_concat_self {α : Type} :
    ∀ (m : List (String × α)) (k : String) (v : α), lookupA m k = none →
      lookupA (m ++ [(k, v)]) k = some v
  | [], k, v, _ => by simp [lookupA]
  | (k0, w) :: rest, k, v, h => by
    have h0 : ¬(k0 = k) := by
      intro hk; simp [lookupA, hk] at h
    have hr : lookupA rest k = none := by simpa [lookupA, h0] using h
    simp [lookupA, h0, lookupA_concat_self rest k v hr]

theorem lookupA_insertIfAbsent_ne {α : Type} (m : List (String × α))
    (k n : String) (v : α) (h : n ≠ k) :
    lookupA (insertIfAbsent m k v) n = lookupA m n := by
  unfold insertIfAbsent
  by_cases hc : containsA m k = true
  · simp [hc]
  · simp [hc, lookupA_concat_ne m k n v h]

theorem insertIfAbsent_of_some {α : Type} (m : List (String × α))
    (k : String) (v w : α) (h : lookupA m k = some w) :
    insertIfAbsent m k v = m := by
  unfold insertIfAbsent
  simp [containsA, h]

theorem lookupA_insertIfAbsent_of_none {α : Type} (m : List (String × α))
    (k : String) (v : α) (h : lookupA m k = none) :
    lookupA (insertIfAbsent m k v) k = some v := by
  unfold insertIfAbsent
  simp [containsA, h, lookupA_concat_self m k v h]

/-! ## The scan invariant of `find_common_dependencies` -/

theorem registryOccs_append (l l2 : List Dep) (n : String) :
    registryOccs (l ++ l2) n = registryOccs l n ++ registryOccs l2 n := by
  simp [registryOccs]

theorem getElem?_concat {α : Type} :
    ∀ (l : List α) (d : α) (i : Nat),
      (l ++ [d])[i]? = if i < l.length then l[i]? else if i = l.length then some d else none
  | [], d, i => by cases i <;> simp
  | a :: l, d, i => by
    cases i with
    | zero => simp
    | succ j =>
      simp only [List.cons_append, List.getElem?_cons_succ, List.length_cons]
      rw [getElem?_concat l d j]
      by_cases h1 : j < l.length
      · rw [if_pos h1, if_pos (by omega)]
      · by_cases h2 : j = l.length
        · rw [if_neg h1, if_pos h2, if_neg (by omega), if_pos (by omega)]
        · rw [if_neg h1, if_neg h2, if_neg (by omega), if_neg (by omega)]

theorem stepDep_inv (t : Nat) (ht : 1 ≤ t) (l : List Dep)
    (st : List (String × Nat) × List (String × Dep)) (d : Dep)
    (h : ScanInv t l st) : ScanInv t (l ++ [d]) (stepDep t st d) := by
  obtain ⟨hcount, hinfo⟩ := h
  by_cases hp : d.path.isSome
  · have hocc : ∀ n, registryOccs (l ++ [d]) n = registryOccs l n := by
      intro n
      simp only [registryOccs_append]
      have hnil : registryOccs [d] n = [] := by
        simp only [registryOccs, List.filter, Bool.and_eq_true]
        have : d.path.isNone = false := by
          cases hd : d.path <;> simp_all
        simp [this]
      rw [hnil, List.append_nil]
    constructor
    · intro n
      simp only [stepDep, if_pos hp]
      rw [hocc n]; exact hcount n
    · intro n
      simp only [stepDep, if_pos hp]
      rw [hocc n]; exact hinfo n
  · have hpn : d.path.isNone := by
      cases hd : d.path <;> simp_all
    have hoccself : registryOccs (l ++ [d]) d.name =
        registryOccs l d.name ++ [d] := by
      simp [registryOccs_append, registryOccs, hpn]
    have hoccne : ∀ n, n ≠ d.name →
        registryOccs (l ++ [d]) n = registryOccs l n := by
      intro n hn
      simp [registryOccs_append, registryOccs, Ne.symm hn]
    have hc1 : getCountD (bumpCount st.1 d.name) d.name =
        (registryOccs l d.name).length + 1 := by
      rw [getCountD_bumpCount_self, hcount d.name]
    simp only [stepDep, if_neg hp, hc1]
    by_cases hb : t ≤ (registryOccs l d.name).length + 1
    · rw [if_pos hb]
      constructor
      · intro n
        dsimp only
        by_cases hn : n = d.name
        · rw [hn, hc1, hoccself]
          simp
        · rw [getCountD_bumpCount_ne st.1 d.name n hn, hcount n, hoccne n hn]
      · intro n
        dsimp only
        by_cases hn : n = d.name
        · rw [hn, hoccself]
          simp only [List.length_append, List.length_cons, List.length_nil]
          rw [if_pos (by omega)]
          by_cases hb2 : t ≤ (registryOccs l d.name).length
          · have hidx : t - 1 < (registryOccs l d.name).length := by omega
            obtain ⟨x, hx⟩ : ∃ x, (registryOccs l d.name)[t - 1]? = some x :=
              ⟨_, List.getElem?_eq_getElem hidx⟩
            have hsome : lookupA st.2 d.name = some x := by
              rw [hinfo d.name, if_pos hb2, hx]
            rw [insertIfAbsent_of_some st.2 d.name d x hsome, hinfo d.name,
              if_pos hb2, getElem?_concat, if_pos hidx, hx]
          · have hnone : lookupA st.2 d.name = none := by
              rw [hinfo d.name, if_neg hb2]
            rw [lookupA_insertIfAbsent_of_none st.2 d.name d hnone,
              getElem?_concat, if_neg (by omega), if_pos (by omega)]
        · rw [lookupA_insertIfAbsent_ne st.2 d.name n d hn, hinfo n, hoccne n hn]
    · rw [if_neg hb]
      constructor
      · intro n
        dsimp only
        by_cases hn : n = d.name
        · rw [hn, hc1, hoccself]
          simp
        · rw [getCountD_bumpCount_ne st.1 d.name n hn, hcount n, hoccne n hn]
      · intro n
        dsimp only
        by_cases hn : n = d.name
        · rw [hn, hoccself, hinfo d.name]
          simp only [List.length_append, List.length_cons, List.length_nil]
          rw [if_neg (by omega), if_neg (by omega)]
        · rw [hinfo n, hoccne n hn]

theorem scanInv_foldl (t : Nat) (ht : 1 ≤ t) :
    ∀ (l2 l : List Dep) (st : List (String × Nat) × List (String × Dep)),
      ScanInv t l st → ScanInv t (l ++ l2) (l2.foldl (stepDep t) st)
  | [], l, st, h => by simpa using h
  | d :: l2, l, st, h => by
    have h1 := stepDep_inv t ht l st d h
    have h2 := scanInv_foldl t ht l2 (l ++ [d]) (stepDep t st d) h1
    simpa using h2

theorem scanInv_scan (t : Nat) (ht : 1 ≤ t) (l : List Dep) :
    ScanInv t l (l.foldl (stepDep t) ([], [])) := by
  have hinit : ScanInv t [] (([], []) :
      List (String × Nat) × List (String × Dep)) := by
    constructor
    · intro n; simp [getCountD, lookupA, registryOccs]
    · intro n
      simp only [registryOccs, List.filter_nil, List.length_nil]
      rw [if_neg (by omega)]
      simp [lookupA]
  simpa using scanInv_foldl t ht l [] ([], []) hinit

theorem foldl_nested_eq_allMemberDeps
    (t : Nat) :
    ∀ (pkgs : List Package) (st : List (String × Nat) × List (String × Dep)),
      pkgs.foldl (fun st p => p.dependencies.foldl (stepDep t) st) st =
        (allMemberDeps pkgs).foldl (stepDep t) st
  | [], st => rfl
  | p :: pkgs, st => by
    simp only [List.foldl_cons, allMemberDeps, List.foldl_append]
    exact foldl_nested_eq_allMemberDeps t pkgs _

/-- The result of `find_common_dependencies`, characterized: a name is
bound exactly when its registry-sourced record count reaches the
threshold, and it is bound to the record at which the count first reached
the threshold (the `minOccurrences`-th occurrence in scan order). -/

theorem lookup_find_common (md : Metadata) (t : Nat)
    (pkgs : List Package) (common : List (String × Dep)) (ht : 1 ≤ t)
    (hp : memberPackages md = Except.ok pkgs)
    (hc : find_common_dependencies md t = Except.ok common) (n : String) :
    lookupA common n =
      (if t ≤ (registryOccs (allMemberDeps pkgs) n).length
       then (registryOccs (allMemberDeps pkgs) n)[t - 1]? else none) := by
  have hcommon : common =
      ((allMemberDeps pkgs).foldl (stepDep t) ([], [])).2 := by
    unfold find_common_dependencies at hc
    rw [hp] at hc
    simp only [Except.ok.injEq] at hc
    rw [← hc, foldl_nested_eq_allMemberDeps]
  subst hcommon
  exact (scanInv_scan t ht (allMemberDeps pkgs)).2 n

/-! ## Lemmas about the root rewrite -/

theorem ensureKey_of_contains (t : Table) (k : String) (v : Item)
    (h : t.containsKey k = true) : ensureKey t k v = t := by
  simp [ensureKey, h]

theorem containsKey_ensureKey_self (t : Table) (k : String) (v : Item) :
    (ensureKey t k v).containsKey k = true := by
  unfold ensureKey
  by_cases h : t.containsKey k = true
  · simp [h]
  · simp only [h, if_false, Bool.false_eq_true]
    exact containsKey_appendEntry_self t k v

theorem containsKey_appendEntry_of_contains (t : Table) (k k' : String)
    (v : Item) (h : t.containsKey k' = true) :
    (t.appendEntry k v).containsKey k' = true := by
  rw [containsKey_eq_isSome_getKey] at h ⊢
  obtain ⟨w, hw⟩ := Option.isSome_iff_exists.mp h
  rw [getKey_appendEntry_of_some t k k' v w hw]
  rfl

theorem addCommonDeps_getKey_of_some :
    ∀ (l : List (String × Dep)) (deps : Table) (n : String) (v : Item),
      deps.getKey n = some v → (addCommonDeps l deps).1.getKey n = some v
  | [], deps, n, v, h => h
  | (n0, i0) :: rest, deps, n, v, h => by
    simp only [addCommonDeps]
    by_cases hc : deps.containsKey n0 = true
    · simp only [hc, if_true]
      exact addCommonDeps_getKey_of_some rest deps n v h
    · simp only [hc, if_false, Bool.false_eq_true]
      exact addCommonDeps_getKey_of_some rest _ n v
        (getKey_appendEntry_of_some deps n0 n _ v h)

theorem addCommonDeps_contains_mono :
    ∀ (l : List (String × Dep)) (deps : Table) (k : String),
      deps.containsKey k = true → (addCommonDeps l deps).1.containsKey k = true
  | [], deps, k, h => h
  | (n0, i0) :: rest, deps, k, h => by
    simp only [addCommonDeps]
    by_cases hc : deps.containsKey n0 = true
    · simp only [hc, if_true]
      exact addCommonDeps_contains_mono rest deps k h
    · simp only [hc, if_false, Bool.false_eq_true]
      exact addCommonDeps_contains_mono rest _ k
        (containsKey_appendEntry_of_contains deps n0 k _ h)

theorem addCommonDeps_contains_mem :
    ∀ (l : List (String × Dep)) (deps : Table) (p : String × Dep), p ∈ l →
      (addCommonDeps l deps).1.containsKey p.1 = true
  | (n0, i0) :: rest, deps, p, hp => by
    simp only [addCommonDeps]
    rcases List.mem_cons.mp hp with heq | hmem
    · subst heq
      by_cases hc : deps.containsKey n0 = true
      · simp only [hc, if_true]
        exact addCommonDeps_contains_mono rest deps n0 hc
      · simp only [hc, if_false, Bool.false_eq_true]
        exact addCommonDeps_contains_mono rest _ n0
          (containsKey_appendEntry_self deps n0 _)
    · by_cases hc : deps.containsKey n0 = true
      · simp only [hc, if_true]
        exact addCommonDeps_contains_mem rest deps p hmem
      · simp only [hc, if_false, Bool.false_eq_true]
        exact addCommonDeps_contains_mem rest _ p hmem

theorem addCommonDeps_of_all_contains :
    ∀ (l : List (String × Dep)) (deps : Table),
      (∀ p ∈ l, deps.containsKey p.1 = true) → addCommonDeps l deps = (deps, false)
  | [], deps, _ => rfl
  | (n0, i0) :: rest, deps, h => by
    have hc : deps.containsKey n0 = true := h (n0, i0) (List.mem_cons_self _ _)
    simp only [addCommonDeps, hc, if_true]
    rw [addCommonDeps_of_all_contains rest deps
      (fun p hp => h p (List.mem_cons_of_mem _ hp))]
    rfl

theorem addCommonDeps_flag_iff :
    ∀ (l : List (String × Dep)) (deps : Table),
      ((addCommonDeps l deps).2 = true ↔ ∃ p ∈ l, deps.containsKey p.1 = false)
  | [], deps => by simp [addCommonDeps]
  | (n0, i0) :: rest, deps => by
    simp only [addCommonDeps]
    by_cases hc : deps.containsKey n0 = true
    · simp only [hc, if_true]
      rw [Bool.false_or]
      rw [addCommonDeps_flag_iff rest deps]
      constructor
      · rintro ⟨p, hp, hpc⟩
        exact ⟨p, List.mem_cons_of_mem _ hp, hpc⟩
      · rintro ⟨p, hp, hpc⟩
        rcases List.mem_cons.mp hp with heq | hmem
        · subst heq
          rw [hc] at hpc
          cases hpc
        · exact ⟨p, hmem, hpc⟩
    · simp only [hc, if_false, Bool.false_eq_true, Bool.true_or]
      constructor
      · intro _
        exact ⟨(n0, i0), List.mem_cons_self _ _,
          Bool.not_eq_true _ ▸ (by simpa using hc)⟩
      · intro _
        trivial

theorem addCommonDeps_getKey_inv :
    ∀ (l : List (String × Dep)) (deps : Table) (n : String) (v : Item),
      (addCommonDeps l deps).1.getKey n = some v →
      deps.getKey n = some v ∨
        (deps.getKey n = none ∧ ∃ p ∈ l, p.1 = n ∧ v = Item.strV p.2.req)
  | [], deps, n, v, h => Or.inl h
  | (n0, i0) :: rest, deps, n, v, h => by
    simp only [addCommonDeps] at h
    by_cases hc : deps.containsKey n0 = true
    · simp only [hc, if_true] at h
      rcases addCommonDeps_getKey_inv rest deps n v h with h1 | ⟨h1, p, hp, hpn, hpv⟩
      · exact Or.inl h1
      · exact Or.inr ⟨h1, p, List.mem_cons_of_mem _ hp, hpn, hpv⟩
    · simp only [hc, if_false, Bool.false_eq_true] at h
      rcases addCommonDeps_getKey_inv rest _ n v h with h1 | ⟨h1, p, hp, hpn, hpv⟩
      · by_cases hn : n = n0
        · subst hn
          have hget : deps.getKey n = none := by
            rw [containsKey_eq_isSome_getKey] at hc
            cases hg : deps.getKey n
            · rfl
            · rw [hg] at hc
              simp at hc
          rw [getKey_appendEntry_self deps n _ hget] at h1
          refine Or.inr ⟨hget, (n, i0), List.mem_cons_self _ _, rfl, ?_⟩
          exact (Option.some.injEq _ _ ▸ h1.symm : v = Item.strV i0.req)
        · rw [getKey_appendEntry_ne deps n0 n _ hn] at h1
          exact Or.inl h1
      · exact Or.inr ⟨by
          by_cases hn : n = n0
          · subst hn
            rw [containsKey_eq_isSome_getKey] at hc
            cases hg : deps.getKey n
            · rfl
            · rw [hg] at hc
              simp at hc
          · rw [getKey_appendEntry_ne deps n0 n _ hn] at h1
            exact h1,
          p, List.mem_cons_of_mem _ hp, hpn, hpv⟩

/-- Destructuring a successful root rewrite: the workspace table found
after the ensure step, the dependencies table found after its ensure step,
and the exact output document and flag. -/

theorem update_root_ok_shape (l : List (String × Dep)) (doc doc' : Table)
    (m : Bool) (hl : l.isEmpty = false)
    (h : update_root_cargo_toml l doc = Except.ok (doc', m)) :
    ∃ ws0 deps : Table,
      (ensureKey doc "workspace" (Item.stdTable Table.nil)).getKey "workspace"
        = some (Item.stdTable ws0) ∧
      (ensureKey ws0 "dependencies" (Item.stdTable Table.nil)).getKey "dependencies"
        = some (Item.stdTable deps) ∧
      doc' = ((ensureKey doc "workspace" (Item.stdTable Table.nil)).setKey
          "workspace"
          (Item.stdTable (ensureKey ws0 "dependencies" (Item.stdTable Table.nil)))).setKey
          "workspace"
          (Item.stdTable ((ensureKey ws0 "dependencies" (Item.stdTable Table.nil)).setKey
            "dependencies" (Item.stdTable (addCommonDeps l deps).1))) ∧
      m = (addCommonDeps l deps).2 := by
  simp only [update_root_cargo_toml, hl, Bool.false_eq_true, if_false] at h
  split at h
  case h_1 ws0 hws =>
    split at h
    case h_1 deps hdeps =>
      simp only [Except.ok.injEq, Prod.mk.injEq] at h
      exact ⟨ws0, deps, hws, hdeps, h.1.symm, h.2.symm⟩
    case h_2 hne hdeps =>
      cases h
  case h_2 hne hws =>
    cases h

/-- A successful root rewrite relates the dependency entries of the input
and output documents through a single `workspace.dependencies` table. -/

theorem update_root_ok_entries (l : List (String × Dep)) (doc doc' : Table)
    (m : Bool) (hl : l.isEmpty = false)
    (h : update_root_cargo_toml l doc = Except.ok (doc', m)) :
    ∃ deps : Table,
      (∀ n, rootDepEntry doc n = deps.getKey n) ∧
      (∀ n, rootDepEntry doc' n = (addCommonDeps l deps).1.getKey n) ∧
      m = (addCommonDeps l deps).2 := by
  obtain ⟨ws0, deps, hws, hdeps, hdoc', hm⟩ := update_root_ok_shape l doc doc' m hl h
  refine ⟨deps, ?_, ?_, hm⟩
  · intro n
    by_cases hcw : doc.containsKey "workspace" = true
    · rw [ensureKey_of_contains doc "workspace" _ hcw] at hws
      by_cases hcd : ws0.containsKey "dependencies" = true
      · rw [ensureKey_of_contains ws0 "dependencies" _ hcd] at hdeps
        simp only [rootDepEntry, hws, hdeps]
      · have hnone : ws0.getKey "dependencies" = none := by
          rw [containsKey_eq_isSome_getKey] at hcd
          cases hg : ws0.getKey "dependencies"
          · rfl
          · rw [hg] at hcd
            simp at hcd
        rw [ensureKey, if_neg (by simp [containsKey_eq_isSome_getKey, hnone])] at hdeps
        rw [getKey_appendEntry_self ws0 "dependencies" _ hnone] at hdeps
        simp only [Option.some.injEq, Item.stdTable.injEq] at hdeps
        simp only [rootDepEntry, hws, hnone, ← hdeps, Table.getKey]
    · have hnone : doc.getKey "workspace" = none := by
        rw [containsKey_eq_isSome_getKey] at hcw
        cases hg : doc.getKey "workspace"
        · rfl
        · rw [hg] at hcw
          simp at hcw
      rw [ensureKey, if_neg (by simp [containsKey_eq_isSome_getKey, hnone])] at hws
      rw [getKey_appendEntry_self doc "workspace" _ hnone] at hws
      simp only [Option.some.injEq, Item.stdTable.injEq] at hws
      have hdnil : Table.nil = deps := by
        rw [← hws] at hdeps
        have hstep : (ensureKey Table.nil "dependencies" (Item.stdTable Table.nil)).getKey
            "dependencies" = some (Item.stdTable Table.nil) := by
          rfl
        rw [hstep] at hdeps
        simpa only [Option.some.injEq, Item.stdTable.injEq] using hdeps
      simp only [rootDepEntry, hnone, ← hdnil, Table.getKey]
  · intro n
    rw [setKey_setKey] at hdoc'
    have hg1 : doc'.getKey "workspace" = some (Item.stdTable
        ((ensureKey ws0 "dependencies" (Item.stdTable Table.nil)).setKey "dependencies"
          (Item.stdTable (addCommonDeps l deps).1))) := by
      rw [hdoc']
      exact getKey_setKey_self _ "workspace" _ (containsKey_ensureKey_self _ _ _)
    have hg2 : ((ensureKey ws0 "dependencies" (Item.stdTable Table.nil)).setKey
        "dependencies" (Item.stdTable (addCommonDeps l deps).1)).getKey "dependencies"
        = some (Item.stdTable (addCommonDeps l deps).1) :=
      getKey_setKey_self _ "dependencies" _ (containsKey_ensureKey_self _ _ _)
    simp only [rootDepEntry, hg1, hg2]

/-- Applying the root rewrite to its own output changes nothing and
reports no modification. -/

theorem update_root_idem (l : List (String × Dep)) (doc doc' : Table)
    (m : Bool) (hl : l.isEmpty = false)
    (h : update_root_cargo_toml l doc = Except.ok (doc', m)) :
    update_root_cargo_toml l doc' = Except.ok (doc', false) := by
  obtain ⟨ws0, deps, hws, hdeps, hdoc', hm⟩ := update_root_ok_shape l doc doc' m hl h
  rw [setKey_setKey] at hdoc'
  set D1 := ensureKey doc "workspace" (Item.stdTable Table.nil) with hD1
  set W1 := ensureKey ws0 "dependencies" (Item.stdTable Table.nil) with hW1
  set depsOut := (addCommonDeps l deps).1 with hdepsOut
  set ws2 := W1.setKey "dependencies" (Item.stdTable depsOut) with hws2
  have hcw : doc'.containsKey "workspace" = true := by
    rw [hdoc', containsKey_setKey]
    exact containsKey_ensureKey_self _ _ _
  have hgw : doc'.getKey "workspace" = some (Item.stdTable ws2) := by
    rw [hdoc']
    exact getKey_setKey_self _ "workspace" _ (containsKey_ensureKey_self _ _ _)
  have hcd : ws2.containsKey "dependencies" = true := by
    rw [hws2, containsKey_setKey]
    exact containsKey_ensureKey_self _ _ _
  have hgd : ws2.getKey "dependencies" = some (Item.stdTable depsOut) := by
    rw [hws2]
    exact getKey_setKey_self _ "dependencies" _ (containsKey_ensureKey_self _ _ _)
  have hadd : addCommonDeps l depsOut = (depsOut, false) :=
    addCommonDeps_of_all_contains l depsOut
      (fun p hp => addCommonDeps_contains_mem l deps p hp)
  have hsk1 : ws2.setKey "dependencies" (Item.stdTable depsOut) = ws2 := by
    rw [hws2, setKey_setKey]
  have hsk2 : doc'.setKey "workspace" (Item.stdTable ws2) = doc' := by
    rw [hdoc', setKey_setKey]
  simp only [update_root_cargo_toml, ensureKey_of_contains doc' "workspace" _ hcw,
    hgw, ensureKey_of_contains ws2 "dependencies" _ hcd, hl, Bool.false_eq_true,
    if_false, hgd, hadd, hsk1, hsk2]

/-! ## Lemmas about the member rewrite -/

theorem contains_of_getKey_some (t : Table) (k : String) (v : Item)
    (h : t.getKey k = some v) : t.containsKey k = true := by
  rw [containsKey_eq_isSome_getKey, h]
  rfl

theorem getKey_eq_none_of_contains_false (t : Table) (k : String)
    (h : t.containsKey k = false) : t.getKey k = none := by
  rw [containsKey_eq_isSome_getKey] at h
  cases hg : t.getKey k
  · rfl
  · rw [hg] at h
    simp at h

theorem rewriteAttrTable_idem (t : Table) :
    rewriteAttrTable (rewriteAttrTable t).1 = ((rewriteAttrTable t).1, false) := by
  have hv1 : (t.removeKey "version").containsKey "version" = false := by
    rw [containsKey_eq_isSome_getKey, getKey_removeKey_self]
    rfl
  have hvneq : ("version" : String) ≠ "workspace" := by decide
  have hrem : (t.removeKey "version").removeKey "version" = t.removeKey "version" :=
    removeKey_of_not_contains _ _ hv1
  cases hget : (t.removeKey "version").getKey "workspace" with
  | none =>
    have h1 : rewriteAttrTable t =
        ((t.removeKey "version").appendEntry "workspace" (Item.boolV true), true) := by
      simp only [rewriteAttrTable, hget]
    rw [h1]
    have hc : ((t.removeKey "version").appendEntry "workspace"
        (Item.boolV true)).containsKey "version" = false := by
      rw [containsKey_eq_isSome_getKey,
        getKey_appendEntry_ne _ "workspace" "version" _ hvneq,
        getKey_removeKey_self]
      rfl
    have hrem2 : (((t.removeKey "version").appendEntry "workspace"
        (Item.boolV true)).removeKey "version")
        = (t.removeKey "version").appendEntry "workspace" (Item.boolV true) :=
      removeKey_of_not_contains _ _ hc
    have hg2 : ((t.removeKey "version").appendEntry "workspace"
        (Item.boolV true)).getKey "workspace" = some (Item.boolV true) :=
      getKey_appendEntry_self _ _ _ hget
    simp only [rewriteAttrTable, hrem2, hg2, if_true]
  | some v =>
    cases v with
    | boolV b =>
      cases b with
      | true => simp only [rewriteAttrTable, hget, hrem, if_true]
      | false =>
        have h1 : rewriteAttrTable t =
            ((t.removeKey "version").setKey "workspace" (Item.boolV true), true) := by
          simp [rewriteAttrTable, hget]
        rw [h1]
        have hc : ((t.removeKey "version").setKey "workspace"
            (Item.boolV true)).containsKey "version" = false := by
          rw [containsKey_setKey]
          exact hv1
        have hrem2 : (((t.removeKey "version").setKey "workspace"
            (Item.boolV true)).removeKey "version")
            = (t.removeKey "version").setKey "workspace" (Item.boolV true) :=
          removeKey_of_not_contains _ _ hc
        have hg2 : ((t.removeKey "version").setKey "workspace"
            (Item.boolV true)).getKey "workspace" = some (Item.boolV true) :=
          getKey_setKey_self _ _ _ (contains_of_getKey_some _ _ _ hget)
        simp only [rewriteAttrTable, hrem2, hg2, if_true]
    | strV s => simp [rewriteAttrTable, hget, hrem]
    | arrV a => simp [rewriteAttrTable, hget, hrem]
    | otherV tag => simp [rewriteAttrTable, hget, hrem]
    | inlineTable tb => simp [rewriteAttrTable, hget, hrem]
    | stdTable tb => simp [rewriteAttrTable, hget, hrem]
    | arrayOfTables ts => simp [rewriteAttrTable, hget, hrem]

mutual

theorem update_dependencies_table_idem (names : List String) :
    ∀ t : Table,
      update_dependencies_table names (update_dependencies_table names t).1
        = ((update_dependencies_table names t).1, false)
  | Table.nil => rfl
  | Table.cons k v rest => by
    have ihrest := update_dependencies_table_idem names rest
    by_cases hk : names.contains k = true
    · have ihitem := updateDepItem_idem names v
      simp only [update_dependencies_table, hk, if_true, ihitem, ihrest,
        Bool.or_false]
    · simp only [update_dependencies_table, hk, if_false, Bool.false_eq_true,
        ihrest, Bool.or_false]

theorem updateDepItem_idem (names : List String) :
    ∀ i : Item,
      updateDepItem names (updateDepItem names i).1 = ((updateDepItem names i).1, false)
  | Item.strV s => by
    have h : rewriteAttrTable (Table.cons "workspace" (Item.boolV true) Table.nil)
        = (Table.cons "workspace" (Item.boolV true) Table.nil, false) := by
      rfl
    simp only [updateDepItem, h]
  | Item.boolV b => rfl
  | Item.arrV a => rfl
  | Item.otherV tag => rfl
  | Item.inlineTable t => by
    simp only [updateDepItem, rewriteAttrTable_idem t]
  | Item.stdTable t => by
    simp only [updateDepItem, rewriteAttrTable_idem t]
  | Item.arrayOfTables ts => by
    simp only [updateDepItem, updateDepTables_idem names ts]

theorem updateDepTables_idem (names : List String) :
    ∀ ts : Tables,
      updateDepTables names (updateDepTables names ts).1
        = ((updateDepTables names ts).1, false)
  | Tables.nil => rfl
  | Tables.cons t rest => by
    simp only [updateDepTables, update_dependencies_table_idem names t,
      updateDepTables_idem names rest, Bool.or_false]

end

theorem getKey_update_deps_mem (names : List String) :
    ∀ (t : Table) (n : String), names.contains n = true →
      (update_dependencies_table names t).1.getKey n
        = (t.getKey n).map (fun v => (updateDepItem names v).1)
  | Table.nil, n, _ => rfl
  | Table.cons k v rest, n, hn => by
    by_cases hk : k = n
    · subst hk
      have hm : k ∈ names := by simpa using hn
      simp [update_dependencies_table, hm, Table.getKey]
    · have hrec := getKey_update_deps_mem names rest n hn
      by_cases hkn : names.contains k = true <;>
        simp [update_dependencies_table, hkn, Table.getKey, hk, hrec]

theorem getKey_update_deps_not_mem (names : List String) :
    ∀ (t : Table) (n : String), names.contains n = false →
      (update_dependencies_table names t).1.getKey n = t.getKey n
  | Table.nil, n, _ => rfl
  | Table.cons k v rest, n, hn => by
    by_cases hk : k = n
    · subst hk
      have hm : ¬(k ∈ names) := by simpa using hn
      simp [update_dependencies_table, hm, Table.getKey]
    · have hrec := getKey_update_deps_not_mem names rest n hn
      by_cases hkn : names.contains k = true <;>
        simp [update_dependencies_table, hkn, Table.getKey, hk, hrec]

theorem rewriteAttrTable_delegates (tb : Table) (h : tableMarkerOk tb = true) :
    hasWorkspaceTrue (rewriteAttrTable tb).1 = true ∧
    (rewriteAttrTable tb).1.containsKey "version" = false := by
  have hvneq : ("version" : String) ≠ "workspace" := by decide
  have hwneq : ("workspace" : String) ≠ "version" := by decide
  have hv1 : (tb.removeKey "version").containsKey "version" = false := by
    rw [containsKey_eq_isSome_getKey, getKey_removeKey_self]
    rfl
  have hsame : (tb.removeKey "version").getKey "workspace" = tb.getKey "workspace" :=
    getKey_removeKey_ne tb "version" "workspace" hwneq
  cases hget : tb.getKey "workspace" with
  | none =>
    have hget1 : (tb.removeKey "version").getKey "workspace" = none := by
      rw [hsame, hget]
    constructor
    · simp only [rewriteAttrTable, hget1, hasWorkspaceTrue,
        getKey_appendEntry_self _ "workspace" (Item.boolV true) hget1]
    · simp only [rewriteAttrTable, hget1]
      rw [containsKey_eq_isSome_getKey,
        getKey_appendEntry_ne _ "workspace" "version" _ hvneq,
        getKey_removeKey_self]
      rfl
  | some v =>
    have hget1 : (tb.removeKey "version").getKey "workspace" = some v := by
      rw [hsame, hget]
    cases v with
    | boolV b =>
      cases b with
      | true =>
        constructor
        · simp only [rewriteAttrTable, hget1, hasWorkspaceTrue, if_true, hget1]
        · simp only [rewriteAttrTable, hget1, if_true]
          exact hv1
      | false =>
        constructor
        · simp only [rewriteAttrTable, hget1, if_false, Bool.false_eq_true,
            hasWorkspaceTrue]
          rw [getKey_setKey_self _ "workspace" _ (contains_of_getKey_some _ _ _ hget1)]
        · simp only [rewriteAttrTable, hget1, if_false, Bool.false_eq_true]
          rw [containsKey_setKey]
          exact hv1
    | strV s => rw [tableMarkerOk, hget] at h; cases h
    | arrV a => rw [tableMarkerOk, hget] at h; cases h
    | otherV tag => rw [tableMarkerOk, hget] at h; cases h
    | inlineTable t2 => rw [tableMarkerOk, hget] at h; cases h
    | stdTable t2 => rw [tableMarkerOk, hget] at h; cases h
    | arrayOfTables ts => rw [tableMarkerOk, hget] at h; cases h

/-- For the recognized non-list variants with a boolean-or-absent marker,
the rewritten declaration carries `workspace = true` and no `version`
key. -/

theorem updateDepItem_delegates (names : List String) (i : Item)
    (h1 : recognizedNonList i = true) (h2 : markerBoolOrAbsent i = true) :
    delegatedDecl (updateDepItem names i).1 = true := by
  cases i with
  | strV s => rfl
  | inlineTable tb =>
    obtain ⟨ha, hb⟩ := rewriteAttrTable_delegates tb h2
    simp [updateDepItem, delegatedDecl, ha, hb]
  | stdTable tb =>
    obtain ⟨ha, hb⟩ := rewriteAttrTable_delegates tb h2
    simp [updateDepItem, delegatedDecl, ha, hb]
  | boolV b => cases h1
  | arrV a => cases h1
  | otherV tag => cases h1
  | arrayOfTables ts => cases h1

/-- An unrecognized shape is left untouched, with no error and no
modification flag (the `_ => \x7b\x7d` arm). -/

theorem updateDepItem_unrecognized (names : List String) (i : Item)
    (h : unrecognizedShape i = true) : updateDepItem names i = (i, false) := by
  cases i with
  | boolV b => rfl
  | arrV a => rfl
  | otherV tag => rfl
  | strV s => cases h
  | inlineTable tb => cases h
  | stdTable tb => cases h
  | arrayOfTables ts => cases h

/-! ## Lemmas about `update_member_cargo_toml` -/

theorem processDepsKey_ok_inv (names : List String) (k : String)
    (d : Table) (b : Bool) (p : Table × Bool)
    (h : processDepsKey names k (d, b) = Except.ok p) :
    (d.getKey k = none ∧ p = (d, b)) ∨
    (∃ tb, d.getKey k = some (Item.stdTable tb) ∧
      p = (d.setKey k (Item.stdTable (update_dependencies_table names tb).1),
           b || (update_dependencies_table names tb).2)) := by
  unfold processDepsKey at h
  split at h
  case h_1 hg =>
    left
    refine ⟨hg, ?_⟩
    simp only [Except.ok.injEq] at h
    exact h.symm
  case h_2 tb hg =>
    right
    refine ⟨tb, hg, ?_⟩
    simp only [Except.ok.injEq] at h
    exact h.symm
  case h_3 hg hne =>
    cases h

theorem processDepsKey_frame (names : List String) (k : String)
    (d : Table) (b : Bool) (d2 : Table) (b2 : Bool)
    (h : processDepsKey names k (d, b) = Except.ok (d2, b2)) :
    ∀ x, x ≠ k → d2.getKey x = d.getKey x := by
  intro x hx
  rcases processDepsKey_ok_inv names k d b (d2, b2) h with ⟨hg, hp⟩ | ⟨tb, hg, hp⟩
  · have h1 : d2 = d := congrArg Prod.fst hp
    rw [h1]
  · have h1 : d2 = d.setKey k (Item.stdTable (update_dependencies_table names tb).1) :=
      congrArg Prod.fst hp
    rw [h1, getKey_setKey_ne _ k x _ hx]

theorem processDepsKey_fix (names : List String) (k : String)
    (d : Table) (b : Bool) (d2 : Table) (b2 : Bool)
    (h : processDepsKey names k (d, b) = Except.ok (d2, b2)) :
    processDepsKey names k (d2, false) = Except.ok (d2, false) := by
  rcases processDepsKey_ok_inv names k d b (d2, b2) h with ⟨hg, hp⟩ | ⟨tb, hg, hp⟩
  · have hd : d2 = d := congrArg Prod.fst hp
    subst hd
    simp [processDepsKey, hg]
  · have hd : d2 = d.setKey k (Item.stdTable (update_dependencies_table names tb).1) :=
      congrArg Prod.fst hp
    have hg2 : d2.getKey k
        = some (Item.stdTable (update_dependencies_table names tb).1) := by
      rw [hd]
      exact getKey_setKey_self _ k _ (contains_of_getKey_some _ _ _ hg)
    have hidem := update_dependencies_table_idem names tb
    simp only [processDepsKey, hg2, hidem, Bool.false_or]
    rw [hd, setKey_setKey]

theorem processDepsKey_fix_setKey_ne (names : List String) (k k2 : String)
    (w : Item) (d : Table) (hne : k ≠ k2)
    (h : processDepsKey names k (d, false) = Except.ok (d, false)) :
    processDepsKey names k (d.setKey k2 w, false)
      = Except.ok (d.setKey k2 w, false) := by
  rcases processDepsKey_ok_inv names k d false (d, false) h with ⟨hg, _⟩ | ⟨tb, hg, hp⟩
  · have hg2 : (d.setKey k2 w).getKey k = none := by
      rw [getKey_setKey_ne _ k2 k _ hne, hg]
    simp [processDepsKey, hg2]
  · have hfix : d.setKey k (Item.stdTable (update_dependencies_table names tb).1) = d := by
      have h1 : d = d.setKey k (Item.stdTable (update_dependencies_table names tb).1) :=
        congrArg Prod.fst hp
      exact h1.symm
    have hflag : (update_dependencies_table names tb).2 = false := by
      have h2 : false = (false || (update_dependencies_table names tb).2) :=
        congrArg Prod.snd hp
      simpa using h2.symm
    have hg2 : (d.setKey k2 w).getKey k = some (Item.stdTable tb) := by
      rw [getKey_setKey_ne _ k2 k _ hne, hg]
    simp only [processDepsKey, hg2, hflag, Bool.false_or]
    rw [setKey_comm d k2 k w _ (Ne.symm hne), hfix]

theorem processDepsKey_fix_step (names : List String) (k k2 : String)
    (d : Table) (b : Bool) (d2 : Table) (b2 : Bool) (hne : k ≠ k2)
    (hfix : processDepsKey names k (d, false) = Except.ok (d, false))
    (hstep : processDepsKey names k2 (d, b) = Except.ok (d2, b2)) :
    processDepsKey names k (d2, false) = Except.ok (d2, false) := by
  rcases processDepsKey_ok_inv names k2 d b (d2, b2) hstep with ⟨hg, hp⟩ | ⟨tb, hg, hp⟩
  · have hd : d2 = d := congrArg Prod.fst hp
    rw [hd]
    exact hfix
  · have hd : d2 = d.setKey k2 (Item.stdTable (update_dependencies_table names tb).1) :=
      congrArg Prod.fst hp
    rw [hd]
    exact processDepsKey_fix_setKey_ne names k k2 _ d hne hfix

theorem update_member_ok_steps (names : List String) (doc doc' : Table) (m : Bool)
    (h : update_member_cargo_toml names doc = Except.ok (doc', m)) :
    ∃ a b2 : Table × Bool,
      processDepsKey names "dependencies" (doc, false) = Except.ok a ∧
      processDepsKey names "dev-dependencies" a = Except.ok b2 ∧
      processDepsKey names "build-dependencies" b2 = Except.ok (doc', m) := by
  unfold update_member_cargo_toml at h
  cases ha : processDepsKey names "dependencies" (doc, false) with
  | error e =>
    simp only [ha] at h
    exact Except.noConfusion h
  | ok a =>
    simp only [ha] at h
    cases hb : processDepsKey names "dev-dependencies" a with
    | error e =>
      simp only [hb] at h
      exact Except.noConfusion h
    | ok b2 =>
      simp only [hb] at h
      exact ⟨a, b2, rfl, hb, h⟩

/-- Applying the member rewrite to its own output changes nothing and
reports no modification. -/

theorem update_member_idem (names : List String) (doc doc' : Table) (m : Bool)
    (h : update_member_cargo_toml names doc = Except.ok (doc', m)) :
    update_member_cargo_toml names doc' = Except.ok (doc', false) := by
  obtain ⟨a, b2, ha, hb, hc⟩ := update_member_ok_steps names doc doc' m h
  obtain ⟨aD, aB⟩ := a
  obtain ⟨bD, bB⟩ := b2
  have hne12 : ("dependencies" : String) ≠ "dev-dependencies" := by decide
  have hne13 : ("dependencies" : String) ≠ "build-dependencies" := by decide
  have hne23 : ("dev-dependencies" : String) ≠ "build-dependencies" := by decide
  have fix1a : processDepsKey names "dependencies" (aD, false)
      = Except.ok (aD, false) :=
    processDepsKey_fix names "dependencies" doc false aD aB ha
  have fix1b : processDepsKey names "dependencies" (bD, false)
      = Except.ok (bD, false) :=
    processDepsKey_fix_step names "dependencies" "dev-dependencies" aD aB bD bB
      hne12 fix1a hb
  have fix1c : processDepsKey names "dependencies" (doc', false)
      = Except.ok (doc', false) :=
    processDepsKey_fix_step names "dependencies" "build-dependencies" bD bB doc' m
      hne13 fix1b hc
  have fix2b : processDepsKey names "dev-dependencies" (bD, false)
      = Except.ok (bD, false) :=
    processDepsKey_fix names "dev-dependencies" aD aB bD bB hb
  have fix2c : processDepsKey names "dev-dependencies" (doc', false)
      = Except.ok (doc', false) :=
    processDepsKey_fix_step names "dev-dependencies" "build-dependencies" bD bB doc' m
      hne23 fix2b hc
  have fix3 : processDepsKey names "build-dependencies" (doc', false)
      = Except.ok (doc', false) :=
    processDepsKey_fix names "build-dependencies" bD bB doc' m hc
  unfold update_member_cargo_toml
  simp only [fix1c, fix2c, fix3]

/-- A successful member rewrite relates the output document's keys to the
input document's keys: keys other than the three dependency-bearing ones
are untouched, and each of the three, when present as a standard table, is
replaced by its `update_dependencies_table` image. -/

theorem update_member_ok_getKey (names : List String) (doc doc' : Table) (m : Bool)
    (h : update_member_cargo_toml names doc = Except.ok (doc', m)) :
    (∀ x, x ≠ "dependencies" → x ≠ "dev-dependencies" → x ≠ "build-dependencies" →
      doc'.getKey x = doc.getKey x) ∧
    (∀ k, k = "dependencies" ∨ k = "dev-dependencies" ∨ k = "build-dependencies" →
      (doc.getKey k = none → doc'.getKey k = none) ∧
      (∀ tb, doc.getKey k = some (Item.stdTable tb) →
        doc'.getKey k = some (Item.stdTable (update_dependencies_table names tb).1))) := by
  obtain ⟨a, b2, ha, hb, hc⟩ := update_member_ok_steps names doc doc' m h
  obtain ⟨aD, aB⟩ := a
  obtain ⟨bD, bB⟩ := b2
  have hne12 : ("dependencies" : String) ≠ "dev-dependencies" := by decide
  have hne13 : ("dependencies" : String) ≠ "build-dependencies" := by decide
  have hne21 : ("dev-dependencies" : String) ≠ "dependencies" := by decide
  have hne23 : ("dev-dependencies" : String) ≠ "build-dependencies" := by decide
  have hne31 : ("build-dependencies" : String) ≠ "dependencies" := by decide
  have hne32 : ("build-dependencies" : String) ≠ "dev-dependencies" := by decide
  have f1 := processDepsKey_frame names "dependencies" doc false aD aB ha
  have f2 := processDepsKey_frame names "dev-dependencies" aD aB bD bB hb
  have f3 := processDepsKey_frame names "build-dependencies" bD bB doc' m hc
  have hkey : ∀ (k : String) (d : Table) (b : Bool) (d2 : Table) (b2 : Bool),
      processDepsKey names k (d, b) = Except.ok (d2, b2) →
      (d.getKey k = none → d2.getKey k = none) ∧
      (∀ tb, d.getKey k = some (Item.stdTable tb) →
        d2.getKey k = some (Item.stdTable (update_dependencies_table names tb).1)) := by
    intro k d b d2 b2 hstep
    rcases processDepsKey_ok_inv names k d b (d2, b2) hstep with ⟨hg, hp⟩ | ⟨tb, hg, hp⟩
    · have hd : d2 = d := congrArg Prod.fst hp
      subst hd
      constructor
      · intro h0
        exact h0
      · intro tb h0
        rw [h0] at hg
        cases hg
    · have hd : d2 = d.setKey k (Item.stdTable (update_dependencies_table names tb).1) :=
        congrArg Prod.fst hp
      constructor
      · intro h0
        rw [h0] at hg
        cases hg
      · intro tb2 h0
        rw [h0] at hg
        have htb : tb = tb2 := by
          simp only [Option.some.injEq, Item.stdTable.injEq] at hg
          exact hg.symm
        subst htb
        rw [hd]
        exact getKey_setKey_self _ k _ (contains_of_getKey_some _ _ _ h0)
  constructor
  · intro x hx1 hx2 hx3
    rw [f3 x hx3, f2 x hx2, f1 x hx1]
  · intro k hk
    rcases hk with hk | hk | hk
    · subst hk
      have hstep := hkey "dependencies" doc false aD aB ha
      constructor
      · intro h0
        rw [f3 _ hne13, f2 _ hne12]
        exact hstep.1 h0
      · intro tb h0
        rw [f3 _ hne13, f2 _ hne12]
        exact hstep.2 tb h0
    · subst hk
      have hga : aD.getKey "dev-dependencies" = doc.getKey "dev-dependencies" :=
        f1 _ hne21
      have hstep := hkey "dev-dependencies" aD aB bD bB hb
      constructor
      · intro h0
        rw [f3 _ hne23]
        exact hstep.1 (hga.trans h0)
      · intro tb h0
        rw [f3 _ hne23]
        exact hstep.2 tb (hga.trans h0)
    · subst hk
      have hga : bD.getKey "build-dependencies" = doc.getKey "build-dependencies" :=
        (f2 _ hne32).trans (f1 _ hne31)
      have hstep := hkey "build-dependencies" bD bB doc' m hc
      constructor
      · intro h0
        exact hstep.1 (hga.trans h0)
      · intro tb h0
        exact hstep.2 tb (hga.trans h0)

/-! ## Lemmas about the file-system model -/

theorem readFs_mapWrite (p : String) (d : Table) :
    ∀ (fs : List (String × Table)) (x : String),
      readFs (fs.map (fun e => if e.1 = p then (e.1, d) else e)) x
        = if x = p then (if containsFs fs p then some d else none) else readFs fs x
  | [], x => by
    by_cases hx : x = p <;> simp [readFs, containsFs, hx]
  | (q, w) :: rest, x => by
    have ih := readFs_mapWrite p d rest x
    simp only [List.map_cons]
    by_cases hq : q = p
    · rw [if_pos hq]
      simp only [readFs]
      by_cases hqx : q = x
      · rw [if_pos (by simp [hqx]), if_pos (hqx ▸ hq : x = p),
          if_pos (by simp [containsFs, readFs, hq] : containsFs ((q, w) :: rest) p = true)]
      · rw [if_neg (by simp [hqx]), ih]
        by_cases hxp : x = p
        · exact absurd (hq.trans hxp.symm) hqx
        · rw [if_neg hxp, if_neg hxp]
          simp [readFs, hqx]
    · rw [if_neg hq]
      simp only [readFs]
      by_cases hqx : q = x
      · rw [if_pos (by simp [hqx]),
          if_neg (fun hxp => hq (hqx.trans hxp) : ¬(x = p))]
        simp [readFs, hqx]
      · rw [if_neg (by simp [hqx]), ih]
        by_cases hxp : x = p
        · rw [if_pos hxp, if_pos hxp,
            (by simp [containsFs, readFs, hq] :
              containsFs ((q, w) :: rest) p = containsFs rest p)]
        · rw [if_neg hxp, if_neg hxp]
          simp [readFs, hqx]

theorem readFs_concat :
    ∀ (fs : List (String × Table)) (p : String) (d : Table) (x : String),
      readFs (fs ++ [(p, d)]) x =
        if (readFs fs x).isSome then readFs fs x
        else if p == x then some d else none
  | [], p, d, x => by simp [readFs]
  | (q, w) :: rest, p, d, x => by
    have ih := readFs_concat rest p d x
    by_cases hq : q = x <;> simp_all [readFs]

theorem readFs_writeFs_self (fs : List (String × Table)) (p : String) (d : Table) :
    readFs (writeFs fs p d) p = some d := by
  unfold writeFs
  by_cases hc : containsFs fs p = true
  · rw [if_pos hc, readFs_mapWrite, if_pos rfl, if_pos hc]
  · rw [if_neg hc, readFs_concat]
    have : readFs fs p = none := by
      rw [containsFs] at hc
      cases hg : readFs fs p
      · rfl
      · rw [hg] at hc
        simp at hc
    rw [this]
    simp

theorem readFs_writeFs_ne (fs : List (String × Table)) (p : String) (d : Table)
    (x : String) (hx : x ≠ p) : readFs (writeFs fs p d) x = readFs fs x := by
  unfold writeFs
  by_cases hc : containsFs fs p = true
  · rw [if_pos hc, readFs_mapWrite, if_neg hx]
  · rw [if_neg hc, readFs_concat]
    cases hg : readFs fs x
    · simp [Ne.symm hx]
    · simp

theorem containsFs_writeFs_self (fs : List (String × Table)) (p : String)
    (d : Table) : containsFs (writeFs fs p d) p = true := by
  rw [containsFs, readFs_writeFs_self]
  rfl

theorem containsFs_writeFs_ne (fs : List (String × Table)) (p : String)
    (d : Table) (x : String) (hx : x ≠ p) :
    containsFs (writeFs fs p d) x = containsFs fs x := by
  rw [containsFs, containsFs, readFs_writeFs_ne fs p d x hx]

theorem containsFs_of_mem :
    ∀ (fs : List (String × Table)) (e : String × Table), e ∈ fs →
      containsFs fs e.1 = true
  | (q, w) :: rest, e, he => by
    rcases List.mem_cons.mp he with heq | hmem
    · subst heq
      simp [containsFs, readFs]
    · by_cases hq : q = e.1
      · simp [containsFs, readFs, hq]
      · have := containsFs_of_mem rest e hmem
        simpa [containsFs, readFs, hq] using this

theorem fsAllEq_writeFs_self (fs : List (String × Table)) (p : String)
    (d : Table) : FsAllEq (writeFs fs p d) p d := by
  intro e he hep
  unfold writeFs at he
  by_cases hc : containsFs fs p = true
  · rw [if_pos hc] at he
    obtain ⟨e0, he0, hfe⟩ := List.mem_map.mp he
    by_cases h0 : e0.1 = p
    · rw [if_pos h0] at hfe
      rw [← hfe]
    · rw [if_neg h0] at hfe
      rw [← hfe] at hep
      exact absurd hep h0
  · rw [if_neg hc] at he
    rcases List.mem_append.mp he with hmem | hsing
    · exfalso
      have := containsFs_of_mem fs e hmem
      rw [hep] at this
      exact hc this
    · have : e = (p, d) := by simpa using hsing
      rw [this]

theorem fsAllEq_writeFs_ne (fs : List (String × Table)) (p q : String)
    (d w : Table) (hne : p ≠ q) (h : FsAllEq fs p d) :
    FsAllEq (writeFs fs q w) p d := by
  intro e he hep
  unfold writeFs at he
  by_cases hc : containsFs fs q = true
  · rw [if_pos hc] at he
    obtain ⟨e0, he0, hfe⟩ := List.mem_map.mp he
    by_cases h0 : e0.1 = q
    · rw [if_pos h0] at hfe
      rw [← hfe] at hep
      exact absurd (hep ▸ h0 : p = q) hne
    · rw [if_neg h0] at hfe
      rw [← hfe]
      rw [← hfe] at hep
      exact h e0 he0 hep
  · rw [if_neg hc] at he
    rcases List.mem_append.mp he with hmem | hsing
    · exact h e hmem hep
    · have : e = (q, w) := by simpa using hsing
      rw [this] at hep
      exact absurd hep (Ne.symm hne)

theorem mapWrite_of_allEq (p : String) (d : Table) :
    ∀ fs : List (String × Table), FsAllEq fs p d →
      fs.map (fun e => if e.1 = p then (e.1, d) else e) = fs
  | [], _ => rfl
  | e :: rest, hall => by
    have htail : FsAllEq rest p d :=
      fun e2 he2 hep => hall e2 (List.mem_cons_of_mem _ he2) hep
    simp only [List.map_cons, mapWrite_of_allEq p d rest htail]
    by_cases h0 : e.1 = p
    · have hv : e.2 = d := hall e (List.mem_cons_self _ _) h0
      rw [if_pos h0, ← hv]
    · rw [if_neg h0]

theorem writeFs_of_allEq (fs : List (String × Table)) (p : String) (d : Table)
    (hall : FsAllEq fs p d) (hc : containsFs fs p = true) :
    writeFs fs p d = fs := by
  unfold writeFs
  rw [if_pos hc, mapWrite_of_allEq p d fs hall]

/-! ## Lemmas about the member loop and the driver -/

theorem runMembers_nil_inv (names : List String) (md : Metadata)
    (fs fs' : List (String × Table)) (ms : List (String × Bool)) (ws : List String)
    (h : runMembers names md [] fs = Except.ok (fs', ms, ws)) :
    fs' = fs ∧ ms = [] ∧ ws = [] := by
  simp only [runMembers, Except.ok.injEq, Prod.mk.injEq] at h
  exact ⟨h.1.symm, h.2.1.symm, h.2.2.symm⟩

theorem runMembers_cons_inv (names : List String) (md : Metadata) (pid : String)
    (rest : List String) (fs fs' : List (String × Table))
    (ms : List (String × Bool)) (ws : List String)
    (h : runMembers names md (pid :: rest) fs = Except.ok (fs', ms, ws)) :
    ∃ (p : Package) (doc : Table) (dm : Table × Bool)
      (msR : List (String × Bool)) (wsR : List String),
      findPackage md.packages pid = some p ∧
      readFs fs p.manifestPath = some doc ∧
      update_member_cargo_toml names doc = Except.ok dm ∧
      runMembers names md rest
        (if dm.2 then writeFs fs p.manifestPath dm.1 else fs)
        = Except.ok (fs', msR, wsR) ∧
      ms = (p.manifestPath, dm.2) :: msR ∧
      ws = (if dm.2 then [p.manifestPath] else []) ++ wsR := by
  simp only [runMembers] at h
  cases hfp : findPackage md.packages pid with
  | none =>
    simp only [hfp] at h
    exact Except.noConfusion h
  | some p =>
    simp only [hfp] at h
    cases hrd : readFs fs p.manifestPath with
    | none =>
      simp only [hrd] at h
      exact Except.noConfusion h
    | some doc =>
      simp only [hrd] at h
      cases hum : update_member_cargo_toml names doc with
      | error e =>
        simp only [hum] at h
        exact Except.noConfusion h
      | ok dm =>
        simp only [hum] at h
        cases hrm : runMembers names md rest
            (if dm.2 then writeFs fs p.manifestPath dm.1 else fs) with
        | error e =>
          simp only [hrm] at h
          exact Except.noConfusion h
        | ok r =>
          simp only [hrm, Except.ok.injEq, Prod.mk.injEq] at h
          exact ⟨p, doc, dm, r.2.1, r.2.2, rfl, hrd, hum,
            (by rw [← h.1]; exact hrm), h.2.1.symm, h.2.2.symm⟩

theorem runMembers_frame (names : List String) (md : Metadata) :
    ∀ (pids : List String) (fs fs' : List (String × Table))
      (ms : List (String × Bool)) (ws : List String),
      runMembers names md pids fs = Except.ok (fs', ms, ws) →
      ∀ x, ¬ x ∈ ws → readFs fs' x = readFs fs x
  | [], fs, fs', ms, ws, h, x, _ => by
    rw [(runMembers_nil_inv names md fs fs' ms ws h).1]
  | pid :: rest, fs, fs', ms, ws, h, x, hx => by
    obtain ⟨p, doc, dm, msR, wsR, hfp, hrd, hum, hrm, hms, hws⟩ :=
      runMembers_cons_inv names md pid rest fs fs' ms ws h
    cases hflag : dm.2 with
    | true =>
      rw [hflag] at hrm hws
      have hxp : x ≠ p.manifestPath := by
        intro hxe
        apply hx
        rw [hws, hxe]
        simp
      have hxw : ¬ x ∈ wsR := by
        intro hxw
        apply hx
        rw [hws]
        simp [hxw]
      rw [runMembers_frame names md rest _ fs' msR wsR hrm x hxw,
        if_pos rfl, readFs_writeFs_ne fs p.manifestPath dm.1 x hxp]
    | false =>
      rw [hflag] at hrm hws
      have hxw : ¬ x ∈ wsR := by
        intro hxw
        apply hx
        rw [hws]
        simpa using hxw
      rw [runMembers_frame names md rest _ fs' msR wsR hrm x hxw]
      simp

theorem runMembers_writes_eq (names : List String) (md : Metadata) :
    ∀ (pids : List String) (fs fs' : List (String × Table))
      (ms : List (String × Bool)) (ws : List String),
      runMembers names md pids fs = Except.ok (fs', ms, ws) →
      ws = (ms.filter (fun e => e.2)).map (fun e => e.1)
  | [], fs, fs', ms, ws, h => by
    obtain ⟨_, hms, hws⟩ := runMembers_nil_inv names md fs fs' ms ws h
    rw [hms, hws]
    rfl
  | pid :: rest, fs, fs', ms, ws, h => by
    obtain ⟨p, doc, dm, msR, wsR, hfp, hrd, hum, hrm, hms, hws⟩ :=
      runMembers_cons_inv names md pid rest fs fs' ms ws h
    have ih := runMembers_writes_eq names md rest _ fs' msR wsR hrm
    rw [hms, hws, ih]
    cases hflag : dm.2 <;> simp [List.filter_cons, hflag]

theorem runMembers_members_paths (names : List String) (md : Metadata) :
    ∀ (pids : List String) (fs fs' : List (String × Table))
      (ms : List (String × Bool)) (ws : List String),
      runMembers names md pids fs = Except.ok (fs', ms, ws) →
      ms.map (fun e => e.1) = memberPathsOf md pids
  | [], fs, fs', ms, ws, h => by
    obtain ⟨_, hms, _⟩ := runMembers_nil_inv names md fs fs' ms ws h
    rw [hms]
    rfl
  | pid :: rest, fs, fs', ms, ws, h => by
    obtain ⟨p, doc, dm, msR, wsR, hfp, hrd, hum, hrm, hms, hws⟩ :=
      runMembers_cons_inv names md pid rest fs fs' ms ws h
    have ih := runMembers_members_paths names md rest _ fs' msR wsR hrm
    rw [hms]
    simp [memberPathsOf, List.filterMap_cons, hfp, ih]

theorem runMembers_allEq (names : List String) (md : Metadata) :
    ∀ (pids : List String) (fs fs' : List (String × Table))
      (ms : List (String × Bool)) (ws : List String)
      (x : String) (dd : Table),
      runMembers names md pids fs = Except.ok (fs', ms, ws) →
      ¬ x ∈ ws → FsAllEq fs x dd → FsAllEq fs' x dd
  | [], fs, fs', ms, ws, x, dd, h, _, hall => by
    rw [(runMembers_nil_inv names md fs fs' ms ws h).1]
    exact hall
  | pid :: rest, fs, fs', ms, ws, x, dd, h, hx, hall => by
    obtain ⟨p, doc, dm, msR, wsR, hfp, hrd, hum, hrm, hms, hws⟩ :=
      runMembers_cons_inv names md pid rest fs fs' ms ws h
    cases hflag : dm.2 with
    | true =>
      rw [hflag] at hrm hws
      have hxp : x ≠ p.manifestPath := by
        intro hxe
        apply hx
        rw [hws, hxe]
        simp
      have hxw : ¬ x ∈ wsR := by
        intro hxw
        apply hx
        rw [hws]
        simp [hxw]
      have hrm2 : runMembers names md rest (writeFs fs p.manifestPath dm.1)
          = Except.ok (fs', msR, wsR) := by simpa using hrm
      exact runMembers_allEq names md rest (writeFs fs p.manifestPath dm.1) fs'
        msR wsR x dd hrm2 hxw
        (fsAllEq_writeFs_ne fs x p.manifestPath dd dm.1 hxp hall)
    | false =>
      rw [hflag] at hrm hws
      have hxw : ¬ x ∈ wsR := by
        intro hxw
        apply hx
        rw [hws]
        simpa using hxw
      have hrm2 : runMembers names md rest fs = Except.ok (fs', msR, wsR) := by
        simpa using hrm
      exact runMembers_allEq names md rest fs fs' msR wsR x dd hrm2 hxw hall

theorem mem_writes_mem_paths (names : List String) (md : Metadata)
    (pids : List String) (fs fs' : List (String × Table))
    (ms : List (String × Bool)) (ws : List String)
    (h : runMembers names md pids fs = Except.ok (fs', ms, ws)) :
    ∀ x ∈ ws, x ∈ memberPathsOf md pids := by
  intro x hx
  rw [runMembers_writes_eq names md pids fs fs' ms ws h] at hx
  obtain ⟨e, he, hex⟩ := List.mem_map.mp hx
  have he2 := (List.mem_filter.mp he).1
  rw [← runMembers_members_paths names md pids fs fs' ms ws h]
  exact hex ▸ List.mem_map.mpr ⟨e, he2, rfl⟩

theorem runMembers_idem (names : List String) (md : Metadata) :
    ∀ (pids : List String) (fs fs' : List (String × Table))
      (ms : List (String × Bool)) (ws : List String),
      (memberPathsOf md pids).Nodup →
      runMembers names md pids fs = Except.ok (fs', ms, ws) →
      runMembers names md pids fs'
        = Except.ok (fs', ms.map (fun e => (e.1, false)), [])
  | [], fs, fs', ms, ws, hnd, h => by
    obtain ⟨hfs, hms, hws⟩ := runMembers_nil_inv names md fs fs' ms ws h
    rw [hms, hfs]
    rfl
  | pid :: rest, fs, fs', ms, ws, hnd, h => by
    obtain ⟨p, doc, dm, msR, wsR, hfp, hrd, hum, hrm, hms, hws⟩ :=
      runMembers_cons_inv names md pid rest fs fs' ms ws h
    obtain ⟨dmD, dmB⟩ := dm
    have hpaths : memberPathsOf md (pid :: rest)
        = p.manifestPath :: memberPathsOf md rest := by
      simp [memberPathsOf, List.filterMap_cons, hfp]
    rw [hpaths] at hnd
    have hnotin : ¬ p.manifestPath ∈ memberPathsOf md rest :=
      (List.nodup_cons.mp hnd).1
    have hndrest : (memberPathsOf md rest).Nodup := (List.nodup_cons.mp hnd).2
    cases dmB with
    | true =>
      have hrm2 : runMembers names md rest (writeFs fs p.manifestPath dmD)
          = Except.ok (fs', msR, wsR) := by simpa using hrm
      have hnw : ¬ p.manifestPath ∈ wsR := fun hx =>
        hnotin (mem_writes_mem_paths names md rest _ fs' msR wsR hrm2 _ hx)
      have hread : readFs fs' p.manifestPath = some dmD := by
        rw [runMembers_frame names md rest _ fs' msR wsR hrm2 _ hnw]
        exact readFs_writeFs_self fs p.manifestPath dmD
      have hum2 : update_member_cargo_toml names dmD = Except.ok (dmD, false) :=
        update_member_idem names doc dmD true hum
      have ih := runMembers_idem names md rest (writeFs fs p.manifestPath dmD)
        fs' msR wsR hndrest hrm2
      simp only [runMembers, hfp, hread, hum2, ih]
      rw [hms]
      simp only [List.map_cons, if_neg Bool.false_ne_true, ih, List.nil_append]
    | false =>
      have hrm2 : runMembers names md rest fs = Except.ok (fs', msR, wsR) := by
        simpa using hrm
      have hnw : ¬ p.manifestPath ∈ wsR := fun hx =>
        hnotin (mem_writes_mem_paths names md rest fs fs' msR wsR hrm2 _ hx)
      have hread : readFs fs' p.manifestPath = some doc := by
        rw [runMembers_frame names md rest fs fs' msR wsR hrm2 _ hnw]
        exact hrd
      have ih := runMembers_idem names md rest fs fs' msR wsR hndrest hrm2
      simp only [runMembers, hfp, hread, hum, ih]
      rw [hms]
      simp only [List.map_cons, if_neg Bool.false_ne_true, ih, List.nil_append]

theorem run_ok_inv (md : Metadata) (t : Nat) (fs fs' : List (String × Table))
    (rep : RunReport) (h : run md t fs = Except.ok (fs', rep)) :
    ∃ common, find_common_dependencies md t = Except.ok common ∧
      ((common.isEmpty = true ∧ fs' = fs ∧ rep = ⟨false, [], []⟩) ∨
       (common.isEmpty = false ∧
        ∃ (rootDoc : Table) (rm : Table × Bool) (ms : List (String × Bool))
          (ws : List String),
          readFs fs (rootManifestPath md) = some rootDoc ∧
          update_root_cargo_toml common rootDoc = Except.ok rm ∧
          runMembers (namesOf common) md md.workspaceMembers
            (writeFs fs (rootManifestPath md) rm.1) = Except.ok (fs', ms, ws) ∧
          rep = ⟨rm.2, ms, rootManifestPath md :: ws⟩)) := by
  unfold run at h
  cases hc : find_common_dependencies md t with
  | error e =>
    simp only [hc] at h
    exact Except.noConfusion h
  | ok common =>
    simp only [hc] at h
    refine ⟨common, rfl, ?_⟩
    cases hie : common.isEmpty with
    | true =>
      simp only [hie, if_true] at h
      simp only [Except.ok.injEq, Prod.mk.injEq] at h
      exact Or.inl ⟨rfl, h.1.symm, h.2.symm⟩
    | false =>
      simp only [hie, Bool.false_eq_true, if_false] at h
      cases hrd : readFs fs (rootManifestPath md) with
      | none =>
        simp only [hrd] at h
        exact Except.noConfusion h
      | some rootDoc =>
        simp only [hrd] at h
        cases hur : update_root_cargo_toml common rootDoc with
        | error e =>
          simp only [hur] at h
          exact Except.noConfusion h
        | ok rm =>
          simp only [hur] at h
          cases hrm : runMembers (namesOf common) md md.workspaceMembers
              (writeFs fs (rootManifestPath md) rm.1) with
          | error e =>
            simp only [hrm] at h
            exact Except.noConfusion h
          | ok r =>
            simp only [hrm, Except.ok.injEq, Prod.mk.injEq] at h
            refine Or.inr ⟨rfl, rootDoc, rm, r.2.1, r.2.2, rfl, hur, ?_, ?_⟩
            · rw [← h.1]
              exact hrm
            · rw [← h.2]

/-- Running the engine on its own output: the file system is unchanged, the
root reports no modification, every member reports no modification. -/

theorem run_idem (md : Metadata) (t : Nat) (fs fs' : List (String × Table))
    (rep : RunReport) (h : run md t fs = Except.ok (fs', rep))
    (hroot : ¬ rootManifestPath md ∈ memberPathsOf md md.workspaceMembers)
    (hnd : (memberPathsOf md md.workspaceMembers).Nodup) :
    ∃ rep2 : RunReport, run md t fs' = Except.ok (fs', rep2) ∧
      rep2.rootModified = false ∧ (∀ e ∈ rep2.members, e.2 = false) ∧
      rep2.members = rep.members.map (fun e => (e.1, false)) := by
  obtain ⟨common, hc, hsplit⟩ := run_ok_inv md t fs fs' rep h
  rcases hsplit with ⟨hie, hfs, hrep⟩ | ⟨hie, rootDoc, rm, ms, ws, hrd, hur, hrm, hrep⟩
  · refine ⟨⟨false, [], []⟩, ?_, rfl, ?_, ?_⟩
    · rw [hfs]
      unfold run
      simp only [hc, hie, if_true]
    · intro e he
      cases he
    · rw [hrep]
      rfl
  · have hwsub : ∀ x ∈ ws, x ∈ memberPathsOf md md.workspaceMembers :=
      mem_writes_mem_paths (namesOf common) md md.workspaceMembers _ fs' ms ws hrm
    have hnw : ¬ rootManifestPath md ∈ ws := fun hx => hroot (hwsub _ hx)
    have hread2 : readFs fs' (rootManifestPath md) = some rm.1 := by
      rw [runMembers_frame (namesOf common) md md.workspaceMembers _ fs' ms ws hrm
        _ hnw]
      exact readFs_writeFs_self fs (rootManifestPath md) rm.1
    have hur2 : update_root_cargo_toml common rm.1 = Except.ok (rm.1, false) :=
      update_root_idem common rootDoc rm.1 rm.2 hie hur
    have hall : FsAllEq fs' (rootManifestPath md) rm.1 :=
      runMembers_allEq (namesOf common) md md.workspaceMembers _ fs' ms ws
        (rootManifestPath md) rm.1 hrm hnw
        (fsAllEq_writeFs_self fs (rootManifestPath md) rm.1)
    have hcont : containsFs fs' (rootManifestPath md) = true := by
      rw [containsFs, hread2]
      rfl
    have hwr2 : writeFs fs' (rootManifestPath md) rm.1 = fs' :=
      writeFs_of_allEq fs' (rootManifestPath md) rm.1 hall hcont
    have hrm2 : runMembers (namesOf common) md md.workspaceMembers fs'
        = Except.ok (fs', ms.map (fun e => (e.1, false)), []) :=
      runMembers_idem (namesOf common) md md.workspaceMembers _ fs' ms ws hnd hrm
    refine ⟨⟨false, ms.map (fun e => (e.1, false)), [rootManifestPath md]⟩, ?_,
      rfl, ?_, ?_⟩
    · unfold run
      simp only [hc, hie, Bool.false_eq_true, if_false, hread2, hur2, hwr2, hrm2]
    · intro e he
      obtain ⟨e0, _, hfe⟩ := List.mem_map.mp he
      rw [← hfe]
    · rw [hrep]

/-- What a run with a non-empty qualifying set writes: the root manifest
unconditionally, then exactly the member manifests whose rewrite reported a
modification; a member whose rewrite reported no modification keeps its
on-disk document. -/

theorem run_writes_char (md : Metadata) (t : Nat) (fs fs' : List (String × Table))
    (rep : RunReport) (common : List (String × Dep))
    (hc : find_common_dependencies md t = Except.ok common)
    (hie : common.isEmpty = false)
    (h : run md t fs = Except.ok (fs', rep)) :
    rep.writes = rootManifestPath md
        :: (rep.members.filter (fun e => e.2)).map (fun e => e.1) ∧
    (¬ rootManifestPath md ∈ memberPathsOf md md.workspaceMembers →
      (memberPathsOf md md.workspaceMembers).Nodup →
      ∀ e ∈ rep.members, e.2 = false → readFs fs' e.1 = readFs fs e.1) := by
  obtain ⟨common2, hc2, hsplit⟩ := run_ok_inv md t fs fs' rep h
  have hceq : common2 = common := by
    rw [hc] at hc2
    simpa using hc2.symm
  subst hceq
  rcases hsplit with ⟨hie2, _, _⟩ | ⟨_, rootDoc, rm, ms, ws, hrd, hur, hrm, hrep⟩
  · rw [hie2] at hie
    cases hie
  · have hws : ws = (ms.filter (fun e => e.2)).map (fun e => e.1) :=
      runMembers_writes_eq (namesOf common2) md md.workspaceMembers _ fs' ms ws hrm
    have hpaths : ms.map (fun e => e.1) = memberPathsOf md md.workspaceMembers :=
      runMembers_members_paths (namesOf common2) md md.workspaceMembers _ fs' ms ws hrm
    constructor
    · rw [hrep, hws]
    · intro hroot hnd e he hflag
      rw [hrep] at he
      have hmem : e.1 ∈ memberPathsOf md md.workspaceMembers := by
        rw [← hpaths]
        exact List.mem_map.mpr ⟨e, he, rfl⟩
      have hnodup : (ms.map (fun e => e.1)).Nodup := by
        rw [hpaths]
        exact hnd
      have hnw : ¬ e.1 ∈ ws := by
        intro hx
        rw [hws] at hx
        obtain ⟨e2, he2, hee⟩ := List.mem_map.mp hx
        have he2m := (List.mem_filter.mp he2).1
        have he2f : e2.2 = true := by simpa using (List.mem_filter.mp he2).2
        have : e = e2 :=
          List.inj_on_of_nodup_map hnodup he he2m hee.symm
        rw [this, he2f] at hflag
        cases hflag
      have hner : e.1 ≠ rootManifestPath md := by
        intro hx
        rw [hx] at hmem
        exact hroot hmem
      rw [runMembers_frame (namesOf common2) md md.workspaceMembers _ fs' ms ws
        hrm _ hnw,
        readFs_writeFs_ne fs (rootManifestPath md) rm.1 _ hner]

/-! ## Concrete instances used by the claim theorems -/

/-! ## C1 -/

/-- C1, counterexample: with threshold 2 and two modules declaring `a` with
requirements `1.0` then `2.0`, the representative recorded for `a` is
`2.0` — the requirement of the occurrence at which the counter reached the
threshold — while the first occurrence encountered in inventory order
carries `1.0`.  The claim that the representative equals the first
occurrence's requirement is false for this input. -/

theorem C1_counterexample :
    find_common_dependencies mdTwo 2 = Except.ok [("a", depA2)] ∧
    (registryOccs (allMemberDeps pkgsTwo) "a")[0]? = some depA1 ∧
    depA2.req = "2.0" ∧ depA1.req = "1.0" ∧ ("2.0" : String) ≠ "1.0" :=
  ⟨rfl, rfl, rfl, rfl, by decide⟩

/-- C1 (amended): for every ordered inventory and threshold `t ≥ 1`, the
representative recorded for a qualifying name is the record at which the
name's counter first reached the threshold — the `t`-th registry-sourced
occurrence in scan order (for `t = 1` this is the first occurrence), not
in general the first occurrence, the most common requirement, or the
highest version. -/

theorem C1_representative_is_threshold_occurrence (md : Metadata) (t : Nat)
    (pkgs : List Package) (common : List (String × Dep)) (n : String) (dep : Dep)
    (ht : 1 ≤ t) (hp : memberPackages md = Except.ok pkgs)
    (hc : find_common_dependencies md t = Except.ok common)
    (hl : lookupA common n = some dep) :
    (registryOccs (allMemberDeps pkgs) n)[t - 1]? = some dep := by
  have hchar := lookup_find_common md t pkgs common ht hp hc n
  rw [hl] at hchar
  by_cases hb : t ≤ (registryOccs (allMemberDeps pkgs) n).length
  · rw [if_pos hb] at hchar
    exact hchar.symm
  · rw [if_neg hb] at hchar
    exact Option.noConfusion hchar

theorem C1_representative_is_threshold_occurrence_witness :
    (1 ≤ 2 ∧ memberPackages mdTwo = Except.ok pkgsTwo ∧
      find_common_dependencies mdTwo 2 = Except.ok [("a", depA2)] ∧
      lookupA [("a", depA2)] "a" = some depA2) ∧
    (registryOccs (allMemberDeps pkgsTwo) "a")[2 - 1]? = some depA2 :=
  ⟨⟨by decide, rfl, rfl, rfl⟩,
    C1_representative_is_threshold_occurrence mdTwo 2 pkgsTwo [("a", depA2)]
      "a" depA2 (by decide) rfl rfl rfl⟩

/-! ## C4 -/

/-- C4, counterexample: with threshold 2, a dependency declared by two
registry-sourced records inside a single module qualifies, although it
appears in exactly `2 - 1 = 1` module.  The clause "a dependency appearing
in exactly threshold − 1 modules never appears in the qualifying set" is
false for this input (the counter counts declaration records, not
modules). -/

theorem C4_counterexample :
    find_common_dependencies ⟨["m1"], [pkgDouble], "root"⟩ 2
      = Except.ok [("a", depA1)] ∧
    modulesDeclaring [pkgDouble] "a" = 2 - 1 :=
  ⟨rfl, rfl⟩

/-- C4 (amended): a registry-sourced name is in the qualifying set if and
only if its final occurrence count — the number of its registry-sourced
declaration records across the inventory, each record counted separately —
is at least the threshold; a name with exactly `t - 1` such records never
qualifies, and one with exactly `t` records always qualifies.  (The
original claim's "modules" must be read as declaration records: a name
declared twice in one module can qualify while present in fewer than `t`
modules.) -/

theorem C4_threshold_iff_record_count (md : Metadata) (t : Nat)
    (pkgs : List Package) (common : List (String × Dep)) (n : String)
    (ht : 1 ≤ t) (hp : memberPackages md = Except.ok pkgs)
    (hc : find_common_dependencies md t = Except.ok common) :
    (containsA common n = true ↔
      t ≤ (registryOccs (allMemberDeps pkgs) n).length) ∧
    ((registryOccs (allMemberDeps pkgs) n).length = t - 1 →
      containsA common n = false) ∧
    ((registryOccs (allMemberDeps pkgs) n).length = t →
      containsA common n = true) := by
  have hchar := lookup_find_common md t pkgs common ht hp hc n
  have hiff : containsA common n = true ↔
      t ≤ (registryOccs (allMemberDeps pkgs) n).length := by
    rw [containsA, hchar]
    by_cases hb : t ≤ (registryOccs (allMemberDeps pkgs) n).length
    · rw [if_pos hb]
      have hidx : t - 1 < (registryOccs (allMemberDeps pkgs) n).length := by omega
      rw [List.getElem?_eq_getElem hidx]
      simp [hb]
    · rw [if_neg hb]
      simp [hb]
  refine ⟨hiff, ?_, ?_⟩
  · intro hlen
    cases hcon : containsA common n with
    | false => rfl
    | true =>
      have := hiff.mp hcon
      omega
  · intro hlen
    exact hiff.mpr (by omega)

theorem C4_threshold_iff_record_count_witness :
    (1 ≤ 2 ∧ memberPackages mdTwo = Except.ok pkgsTwo ∧
      find_common_dependencies mdTwo 2 = Except.ok [("a", depA2)]) ∧
    ((containsA [("a", depA2)] "a" = true ↔
      2 ≤ (registryOccs (allMemberDeps pkgsTwo) "a").length) ∧
    ((registryOccs (allMemberDeps pkgsTwo) "a").length = 2 - 1 →
      containsA [("a", depA2)] "a" = false) ∧
    ((registryOccs (allMemberDeps pkgsTwo) "a").length = 2 →
      containsA [("a", depA2)] "a" = true)) :=
  ⟨⟨by decide, rfl, rfl⟩,
    C4_threshold_iff_record_count mdTwo 2 pkgsTwo [("a", depA2)] "a"
      (by decide) rfl rfl⟩

/-! ## C10 -/

/-- C10: occurrence counting is per declaration record, not per module —
every registry-sourced declared-dependency record increments the name's
counter — so a name reaching the threshold through repeated declarations
inside one single module qualifies, from fewer distinct modules than the
threshold. -/

theorem C10_per_record_counting (t : Nat) (p : Package) (n : String)
    (common : List (String × Dep)) (ht : 1 ≤ t)
    (hrec : t ≤ (registryOccs p.dependencies n).length)
    (hc : find_common_dependencies ⟨[p.id], [p], "root"⟩ t = Except.ok common) :
    containsA common n = true ∧ modulesDeclaring [p] n ≤ 1 := by
  have hp : memberPackages ⟨[p.id], [p], "root"⟩ = Except.ok [p] := by
    simp [memberPackages, memberPackagesGo, findPackage, List.find?]
  have hchar := lookup_find_common ⟨[p.id], [p], "root"⟩ t [p] common ht hp hc n
  have hdeps : allMemberDeps [p] = p.dependencies := by
    simp [allMemberDeps]
  rw [hdeps] at hchar
  constructor
  · rw [containsA, hchar, if_pos hrec]
    have hidx : t - 1 < (registryOccs p.dependencies n).length := by omega
    rw [List.getElem?_eq_getElem hidx]
    rfl
  · rw [modulesDeclaring]
    cases hp2 : p.dependencies.any (fun d => d.path.isNone && d.name == n) <;>
      simp [List.filter, hp2]

theorem C10_per_record_counting_witness :
    (1 ≤ 2 ∧ 2 ≤ (registryOccs pkgDouble.dependencies "a").length ∧
      find_common_dependencies ⟨[pkgDouble.id], [pkgDouble], "root"⟩ 2
        = Except.ok [("a", depA1)]) ∧
    (containsA [("a", depA1)] "a" = true ∧ modulesDeclaring [pkgDouble] "a" ≤ 1) :=
  ⟨⟨by decide, by decide, rfl⟩,
    C10_per_record_counting 2 pkgDouble "a" [("a", depA1)] (by decide)
      (by decide) rfl⟩

/-! ## C2 -/

/-- C2: the root rewrite never changes the value of an entry already
present as a key in `workspace.dependencies` (an existing root pin is
unchanged after apply), every entry it adds is an absent name inserted as
a plain version string, and the returned boolean is true iff at least one
insertion occurred. -/

theorem C2_root_never_overwrites (common : List (String × Dep))
    (doc doc' : Table) (m : Bool) (hne : common ≠ [])
    (h : update_root_cargo_toml common doc = Except.ok (doc', m)) :
    (∀ n v, rootDepEntry doc n = some v → rootDepEntry doc' n = some v) ∧
    (∀ n v, rootDepEntry doc' n = some v →
      rootDepEntry doc n = some v ∨
      (rootDepEntry doc n = none ∧ ∃ p ∈ common, p.1 = n ∧ v = Item.strV p.2.req)) ∧
    (m = true ↔ ∃ p ∈ common, rootDepEntry doc p.1 = none) := by
  have hie : common.isEmpty = false := by
    cases common with
    | nil => exact absurd rfl hne
    | cons a l => rfl
  obtain ⟨deps, h1, h2, hm⟩ := update_root_ok_entries common doc doc' m hie h
  refine ⟨?_, ?_, ?_⟩
  · intro n v hv
    rw [h2 n]
    exact addCommonDeps_getKey_of_some common deps n v (by rw [← h1 n]; exact hv)
  · intro n v hv
    rw [h2 n] at hv
    rcases addCommonDeps_getKey_inv common deps n v hv with hg | ⟨hg, p, hp, hpn, hpv⟩
    · exact Or.inl (by rw [h1 n]; exact hg)
    · exact Or.inr ⟨by rw [h1 n]; exact hg, p, hp, hpn, hpv⟩
  · rw [hm, addCommonDeps_flag_iff]
    constructor
    · rintro ⟨p, hp, hpc⟩
      refine ⟨p, hp, ?_⟩
      rw [h1 p.1]
      exact getKey_eq_none_of_contains_false deps p.1 hpc
    · rintro ⟨p, hp, hpe⟩
      refine ⟨p, hp, ?_⟩
      rw [h1 p.1] at hpe
      rw [containsKey_eq_isSome_getKey, hpe]
      rfl

theorem C2_root_never_overwrites_witness :
    (([("a", depA1), ("b", depB2)] : List (String × Dep)) ≠ [] ∧
      update_root_cargo_toml [("a", depA1), ("b", depB2)] rootDocPinned
        = Except.ok (rootDocPinnedOut, true)) ∧
    ((∀ n v, rootDepEntry rootDocPinned n = some v →
        rootDepEntry rootDocPinnedOut n = some v) ∧
     (∀ n v, rootDepEntry rootDocPinnedOut n = some v →
        rootDepEntry rootDocPinned n = some v ∨
        (rootDepEntry rootDocPinned n = none ∧
          ∃ p ∈ [("a", depA1), ("b", depB2)], p.1 = n ∧ v = Item.strV p.2.req)) ∧
     (true = true ↔
        ∃ p ∈ [("a", depA1), ("b", depB2)], rootDepEntry rootDocPinned p.1 = none)) :=
  ⟨⟨by simp, rfl⟩,
    C2_root_never_overwrites [("a", depA1), ("b", depB2)] rootDocPinned
      rootDocPinnedOut true (by simp) rfl⟩

/-! ## C5 -/

/-- C5, counterexample: a qualifying dependency declared as
`a = \x7b version = "1.0", workspace = "yes" \x7d` is rewritten without any
error, yet the resulting declaration does not carry `workspace = true`:
the pre-existing non-boolean `workspace` value is left alone (the source's
`as_bool` guard), so the invariant "after every successful rewrite the
declaration carries the delegation marker" is false for this input. -/

theorem C5_counterexample :
    update_member_cargo_toml ["a"] docC5 = Except.ok (docC5out, false) ∧
    memberDepEntry docC5out "a"
      = some (Item.inlineTable (Table.cons "workspace" (Item.strV "yes") Table.nil)) ∧
    delegatedDecl
      (Item.inlineTable (Table.cons "workspace" (Item.strV "yes") Table.nil))
      = false :=
  ⟨rfl, rfl, rfl⟩

/-- C5 (amended): after a successful rewrite, a qualifying dependency's
declaration carries `workspace = true` and no `version` key in every
recognized non-list variant, provided any pre-existing `workspace` key in
the declaration is boolean or absent (a non-boolean pre-existing marker is
left unchanged, though `version` is still removed); the per-target list
variant is handled by recursing the rewrite into each element. -/

theorem C5_delegation_invariant (names : List String) (tb : Table) (n : String)
    (e : Item) (hn : names.contains n = true) (hget : tb.getKey n = some e) :
    (recognizedNonList e = true → markerBoolOrAbsent e = true →
      ∃ e2, (update_dependencies_table names tb).1.getKey n = some e2 ∧
        delegatedDecl e2 = true) ∧
    (∀ ts, e = Item.arrayOfTables ts →
      (update_dependencies_table names tb).1.getKey n
        = some (Item.arrayOfTables (updateDepTables names ts).1)) := by
  have hmap := getKey_update_deps_mem names tb n hn
  rw [hget] at hmap
  constructor
  · intro h1 h2
    exact ⟨(updateDepItem names e).1, by rw [hmap]; rfl,
      updateDepItem_delegates names e h1 h2⟩
  · intro ts hts
    rw [hmap, hts]
    rfl

theorem C5_delegation_invariant_witness :
    ((["a"] : List String).contains "a" = true ∧
      (Table.cons "a" (Item.strV "1.0") Table.nil).getKey "a"
        = some (Item.strV "1.0")) ∧
    ((recognizedNonList (Item.strV "1.0") = true →
      markerBoolOrAbsent (Item.strV "1.0") = true →
      ∃ e2, (update_dependencies_table ["a"]
          (Table.cons "a" (Item.strV "1.0") Table.nil)).1.getKey "a" = some e2 ∧
        delegatedDecl e2 = true) ∧
    (∀ ts, Item.strV "1.0" = Item.arrayOfTables ts →
      (update_dependencies_table ["a"]
          (Table.cons "a" (Item.strV "1.0") Table.nil)).1.getKey "a"
        = some (Item.arrayOfTables (updateDepTables ["a"] ts).1))) :=
  ⟨⟨rfl, rfl⟩,
    C5_delegation_invariant ["a"] (Table.cons "a" (Item.strV "1.0") Table.nil)
      "a" (Item.strV "1.0") rfl rfl⟩

/-! ## C9 -/

/-- C9, counterexample: a qualifying dependency whose table entry has an
unrecognized shape (here an unexpected primitive value) is silently left
untouched by the member rewrite — the call returns `ok` with the document
unchanged and no modification flag — rather than signalling any
malformed-declaration condition.  The claimed error does not exist in the
code (`src/main.rs` line 428, `_ => \x7b\x7d`). -/

theorem C9_counterexample :
    update_member_cargo_toml ["a"] docC9 = Except.ok (docC9, false) ∧
    memberDepEntry docC9 "a" = some (Item.otherV "integer") ∧
    unrecognizedShape (Item.otherV "integer") = true :=
  ⟨rfl, rfl, rfl⟩

/-- C9 (amended): when a qualifying dependency's table entry has an
unrecognized shape — none of: plain version string, inline attribute set,
attribute block, or array of per-target blocks — the member rewrite leaves
the entry untouched and reports no modification and no error; nothing is
signalled and nothing is coerced. -/

theorem C9_unrecognized_silently_ignored (names : List String) (tb : Table)
    (n : String) (e : Item) (hn : names.contains n = true)
    (hget : tb.getKey n = some e) (hu : unrecognizedShape e = true) :
    (update_dependencies_table names tb).1.getKey n = some e ∧
    updateDepItem names e = (e, false) := by
  have hmap := getKey_update_deps_mem names tb n hn
  rw [hget] at hmap
  have hid := updateDepItem_unrecognized names e hu
  constructor
  · rw [hmap]
    simp [hid]
  · exact hid

theorem C9_unrecognized_silently_ignored_witness :
    ((["a"] : List String).contains "a" = true ∧
      (Table.cons "a" (Item.otherV "integer") Table.nil).getKey "a"
        = some (Item.otherV "integer") ∧
      unrecognizedShape (Item.otherV "integer") = true) ∧
    ((update_dependencies_table ["a"]
        (Table.cons "a" (Item.otherV "integer") Table.nil)).1.getKey "a"
      = some (Item.otherV "integer") ∧
    updateDepItem ["a"] (Item.otherV "integer") = (Item.otherV "integer", false)) :=
  ⟨⟨rfl, rfl, rfl⟩,
    C9_unrecognized_silently_ignored ["a"]
      (Table.cons "a" (Item.otherV "integer") Table.nil) "a"
      (Item.otherV "integer") rfl rfl rfl⟩

/-! ## C6 -/

/-- C6: for `foo = "1.0"` and `bar = \x7b version = "2.0",
features = ["x"] \x7d` with both qualifying, the member rewrite replaces
`foo` with an attribute set holding only `workspace = true`, rewrites `bar`
to keep `features = ["x"]` and carry the marker with no `version` key, and
the root rewrite adds `foo = "1.0"` and `bar = "2.0"` to the shared table
when those keys are absent. -/

theorem C6_variant_scenario :
    update_member_cargo_toml ["foo", "bar"] docC6 = Except.ok (docC6out, true) ∧
    memberDepEntry docC6out "foo"
      = some (Item.inlineTable (Table.cons "workspace" (Item.boolV true) Table.nil)) ∧
    memberDepEntry docC6out "bar"
      = some (Item.inlineTable
          (Table.cons "features" (Item.arrV ["x"])
            (Table.cons "workspace" (Item.boolV true) Table.nil))) ∧
    delegatedDecl
      (Item.inlineTable (Table.cons "workspace" (Item.boolV true) Table.nil))
      = true ∧
    delegatedDecl
      (Item.inlineTable
        (Table.cons "features" (Item.arrV ["x"])
          (Table.cons "workspace" (Item.boolV true) Table.nil))) = true ∧
    update_root_cargo_toml [("foo", depFoo), ("bar", depBar)] Table.nil
      = Except.ok (rootC6out, true) ∧
    rootDepEntry rootC6out "foo" = some (Item.strV "1.0") ∧
    rootDepEntry rootC6out "bar" = some (Item.strV "2.0") :=
  ⟨rfl, rfl, rfl, rfl, rfl, rfl, rfl, rfl⟩

/-! ## C7 -/

/-- C7: the member rewrite operates over exactly the tables named
`dependencies`, `dev-dependencies` and `build-dependencies` that exist in
the document (every other key is untouched), and the array-of-tables
variant recurses `update_dependencies_table` — the same procedure applied
to the top-level tables — into every element, OR-ing the flags, so a
qualifying dependency keyed inside a recursed element table is rewritten
the same way as one in a top-level table. -/

theorem C7_processes_dependency_tables (names : List String) (doc doc' : Table)
    (m : Bool) (h : update_member_cargo_toml names doc = Except.ok (doc', m)) :
    (∀ x, x ≠ "dependencies" → x ≠ "dev-dependencies" → x ≠ "build-dependencies" →
      doc'.getKey x = doc.getKey x) ∧
    (∀ k, k = "dependencies" ∨ k = "dev-dependencies" ∨ k = "build-dependencies" →
      ∀ tb, doc.getKey k = some (Item.stdTable tb) →
        doc'.getKey k = some (Item.stdTable (update_dependencies_table names tb).1)) ∧
    (∀ ts, updateDepItem names (Item.arrayOfTables ts)
      = (Item.arrayOfTables (updateDepTables names ts).1, (updateDepTables names ts).2)) ∧
    (∀ tb2 rest2, updateDepTables names (Tables.cons tb2 rest2)
      = (Tables.cons (update_dependencies_table names tb2).1
          (updateDepTables names rest2).1,
         (update_dependencies_table names tb2).2 || (updateDepTables names rest2).2)) := by
  obtain ⟨hframe, hkeys⟩ := update_member_ok_getKey names doc doc' m h
  refine ⟨hframe, ?_, fun ts => rfl, fun tb2 rest2 => rfl⟩
  intro k hk tb htb
  exact (hkeys k hk).2 tb htb

theorem C7_processes_dependency_tables_witness :
    update_member_cargo_toml ["foo", "bar"] docC6 = Except.ok (docC6out, true) ∧
    ((∀ x, x ≠ "dependencies" → x ≠ "dev-dependencies" → x ≠ "build-dependencies" →
      docC6out.getKey x = docC6.getKey x) ∧
    (∀ k, k = "dependencies" ∨ k = "dev-dependencies" ∨ k = "build-dependencies" →
      ∀ tb, docC6.getKey k = some (Item.stdTable tb) →
        docC6out.getKey k
          = some (Item.stdTable (update_dependencies_table ["foo", "bar"] tb).1)) ∧
    (∀ ts, updateDepItem ["foo", "bar"] (Item.arrayOfTables ts)
      = (Item.arrayOfTables (updateDepTables ["foo", "bar"] ts).1,
         (updateDepTables ["foo", "bar"] ts).2)) ∧
    (∀ tb2 rest2, updateDepTables ["foo", "bar"] (Tables.cons tb2 rest2)
      = (Tables.cons (update_dependencies_table ["foo", "bar"] tb2).1
          (updateDepTables ["foo", "bar"] rest2).1,
         (update_dependencies_table ["foo", "bar"] tb2).2
           || (updateDepTables ["foo", "bar"] rest2).2))) :=
  ⟨rfl, C7_processes_dependency_tables ["foo", "bar"] docC6 docC6out true rfl⟩

/-! ## C3 -/

/-- C3: a second run of the full engine on the output of a first run
produces the same file system (documents identical, hence byte-identical
serialized output) and reports no file modified — the root modification
flag and every member flag are false; in particular, applying the member
rewrite a second time to an already-rewritten document returns
`modified = false` and leaves the document unchanged.  The path
hypotheses say the root manifest path differs from every member manifest
path and member manifest paths are pairwise distinct. -/

theorem C3_engine_idempotent (md : Metadata) (t : Nat)
    (fs fs' : List (String × Table)) (rep : RunReport)
    (h : run md t fs = Except.ok (fs', rep))
    (hroot : ¬ rootManifestPath md ∈ memberPathsOf md md.workspaceMembers)
    (hnd : (memberPathsOf md md.workspaceMembers).Nodup) :
    (∃ rep2 : RunReport, run md t fs' = Except.ok (fs', rep2) ∧
      rep2.rootModified = false ∧ ∀ e ∈ rep2.members, e.2 = false) ∧
    (∀ (names : List String) (doc doc2 : Table) (m2 : Bool),
      update_member_cargo_toml names doc = Except.ok (doc2, m2) →
      update_member_cargo_toml names doc2 = Except.ok (doc2, false)) := by
  constructor
  · obtain ⟨rep2, h2, hr, hm, _⟩ := run_idem md t fs fs' rep h hroot hnd
    exact ⟨rep2, h2, hr, hm⟩
  · intro names doc doc2 m2 hm
    exact update_member_idem names doc doc2 m2 hm

theorem C3_engine_idempotent_witness :
    (run mdRun 1 fsFresh = Except.ok (fsFresh1, repFresh) ∧
      ¬ rootManifestPath mdRun ∈ memberPathsOf mdRun mdRun.workspaceMembers ∧
      (memberPathsOf mdRun mdRun.workspaceMembers).Nodup) ∧
    ((∃ rep2 : RunReport, run mdRun 1 fsFresh1 = Except.ok (fsFresh1, rep2) ∧
      rep2.rootModified = false ∧ ∀ e ∈ rep2.members, e.2 = false) ∧
    (∀ (names : List String) (doc doc2 : Table) (m2 : Bool),
      update_member_cargo_toml names doc = Except.ok (doc2, m2) →
      update_member_cargo_toml names doc2 = Except.ok (doc2, false))) :=
  ⟨⟨rfl, by decide, by decide⟩,
    C3_engine_idempotent mdRun 1 fsFresh fsFresh1 repFresh rfl (by decide)
      (by decide)⟩

/-! ## C8 -/

/-- C8, counterexample: on an already-consolidated project the run reports
the root document unmodified (`rootModified = false`) yet still writes the
root manifest — the write list contains the root path (the unconditional
`fs::write` at `src/main.rs` line 288).  The clause "a file whose document
is unmodified is never rewritten, so timestamps are a reliable signal" is
false for the root manifest. -/

theorem C8_counterexample :
    run mdRun 1 fsFresh1 = Except.ok (fsFresh1,
      ⟨false, [("m1/Cargo.toml", false)], ["root/Cargo.toml"]⟩) ∧
    rootManifestPath mdRun = "root/Cargo.toml" :=
  ⟨rfl, rfl⟩

/-- C8 (amended): on every run with a non-empty qualifying set, the write
list is exactly the root manifest followed by the member manifests whose
rewrite reported a modification: member manifests are written only when
actually modified, and an unmodified member manifest's stored document is
untouched, but the root manifest is written unconditionally even when
unmodified — so timestamps are a reliable signal only for member
manifests. -/

theorem C8_root_always_written_members_conditional (md : Metadata) (t : Nat)
    (fs fs' : List (String × Table)) (rep : RunReport)
    (common : List (String × Dep))
    (hc : find_common_dependencies md t = Except.ok common)
    (hne : common.isEmpty = false)
    (h : run md t fs = Except.ok (fs', rep)) :
    rep.writes = rootManifestPath md
        :: (rep.members.filter (fun e => e.2)).map (fun e => e.1) ∧
    (¬ rootManifestPath md ∈ memberPathsOf md md.workspaceMembers →
      (memberPathsOf md md.workspaceMembers).Nodup →
      ∀ e ∈ rep.members, e.2 = false → readFs fs' e.1 = readFs fs e.1) :=
  run_writes_char md t fs fs' rep common hc hne h

theorem C8_root_always_written_members_conditional_witness :
    (find_common_dependencies mdRun 1 = Except.ok [("a", depA1)] ∧
      ([("a", depA1)] : List (String × Dep)).isEmpty = false ∧
      run mdRun 1 fsFresh = Except.ok (fsFresh1, repFresh)) ∧
    (repFresh.writes = rootManifestPath mdRun
        :: (repFresh.members.filter (fun e => e.2)).map (fun e => e.1) ∧
    (¬ rootManifestPath mdRun ∈ memberPathsOf mdRun mdRun.workspaceMembers →
      (memberPathsOf mdRun mdRun.workspaceMembers).Nodup →
      ∀ e ∈ repFresh.members, e.2 = false →
        readFs fsFresh1 e.1 = readFs fsFresh e.1)) :=
  ⟨⟨rfl, rfl, rfl⟩,
    C8_root_always_written_members_conditional mdRun 1 fsFresh fsFresh1
      repFresh [("a", depA1)] rfl rfl rfl⟩
